import Mathlib

/-!
Verification of the dependency-extraction engine of `sca-cli`.

The Go source is shallowly embedded: file contents are `String`s, Go maps
are association lists (`List (String × α)`) whose iteration order is the
list order, Go string-set accumulators are `List String` built with
insert-if-absent, and each parser is a pure Lean function translated from
the corresponding Go function in `parsers.go` / `output.go` /
`discovery.go`.  Functions of the Go standard library that the source
calls (`strings.TrimSpace`, `strings.Fields`, `strings.Split`,
`strings.Index`, `strings.Contains`, `sort.Strings`, `filepath.Walk`,
`filepath.Rel`, `encoding/json`) are modelled over ASCII strings; the
regular expressions of the source are translated into explicit scanning
functions implementing Go's leftmost-first, non-overlapping match
semantics for the concrete patterns of the source.
-/

/-! ## Character classes and basic string helpers -/

/-- Whitespace class used by Go `unicode.IsSpace` (`strings.TrimSpace`,
`strings.Fields`), restricted to ASCII. -/
def goWs (c : Char) : Bool :=
  c = ' ' || c = '\t' || c = '\n' || c = '\x0b' || c = '\x0c' || c = '\r'

/-- Whitespace class of the regexp escape used in the POM patterns
(Perl `[\t\n\f\r ]`). -/
def reWs (c : Char) : Bool :=
  c = ' ' || c = '\t' || c = '\n' || c = '\x0c' || c = '\r'

/-- Go `strings.TrimSpace` on char lists. -/
def trimSpaceL (l : List Char) : List Char :=
  ((l.dropWhile goWs).reverse.dropWhile goWs).reverse

/-- Go `strings.TrimSpace`. -/
def trimSpace (s : String) : String := ⟨trimSpaceL s.data⟩

/-- Go `strings.Fields`, with the word accumulated so far (reversed). -/
def fieldsLAux (cur : List Char) : List Char → List (List Char)
  | [] => if cur = [] then [] else [cur.reverse]
  | c :: rest =>
    if goWs c then
      if cur = [] then fieldsLAux [] rest else cur.reverse :: fieldsLAux [] rest
    else fieldsLAux (c :: cur) rest

/-- Go `strings.Fields`: split around maximal runs of whitespace. -/
def fieldsL (l : List Char) : List (List Char) := fieldsLAux [] l

/-- Go `strings.Fields` at `String` type. -/
def fields (s : String) : List String :=
  (fieldsL s.data).map (fun l => ⟨l⟩)

/-- Go `strings.Split(s, "\n")` on char lists. -/
def splitNl : List Char → List (List Char)
  | [] => [[]]
  | c :: rest =>
    if c = '\n' then [] :: splitNl rest
    else
      match splitNl rest with
      | [] => [[c]]
      | l :: ls => (c :: l) :: ls

/-- Go `strings.Split(s, "\n")`. -/
def splitLines (s : String) : List String :=
  (splitNl s.data).map (fun l => ⟨l⟩)

/-- First occurrence of `pat` in a char list (Go `strings.Index`):
returns the part strictly before the occurrence and the part strictly
after it. -/
def splitOnceL (pat : List Char) : List Char → Option (List Char × List Char)
  | [] => if pat.isPrefixOf ([] : List Char) then some ([], []) else none
  | c :: rest =>
    if pat.isPrefixOf (c :: rest) then some ([], (c :: rest).drop pat.length)
    else
      match splitOnceL pat rest with
      | some (l, r) => some (c :: l, r)
      | none => none

/-- Go `strings.Index(s, pat) >= 0`, i.e. `strings.Contains`. -/
def hasSubAux (pat : List Char) : List Char → Bool
  | [] => pat.isPrefixOf ([] : List Char)
  | c :: rest => pat.isPrefixOf (c :: rest) || hasSubAux pat rest

/-- Go `strings.Contains s pat`. -/
def strContains (s pat : String) : Bool := hasSubAux pat.data s.data

/-- Go `strings.HasPrefix s pre`. -/
def strHasPrefix (s pre : String) : Bool := pre.data.isPrefixOf s.data

/-- Go `strings.HasSuffix s suf`. -/
def strHasSuffix (s suf : String) : Bool := suf.data.isSuffixOf s.data

/-! ## A computable lexicographic order on strings

Go's `sort.Strings` sorts byte-lexicographically.  On the ASCII strings
of this development this agrees with lexicographic comparison of the
code points, which is implemented here as a kernel-computable boolean
relation (the `≤` of `String` in core Lean does not reduce in the
kernel). -/

/-- Lexicographic `≤` on char lists, by code point. -/
def lexLeb : List Char → List Char → Bool
  | [], _ => true
  | _ :: _, [] => false
  | a :: as, b :: bs =>
    if a.toNat < b.toNat then true
    else if b.toNat < a.toNat then false
    else lexLeb as bs

/-- Byte-lexicographic `≤` on strings (Go `sort.Strings` order). -/
def strLeb (a b : String) : Bool := lexLeb a.data b.data

/-- The ordering as a relation. -/
def strLeR (a b : String) : Prop := strLeb a b = true

instance : DecidableRel strLeR := fun a b => by
  unfold strLeR; infer_instance

/-! ## Go maps and string sets as lists

A Go `map[string]T` is embedded as an association list whose iteration
order is the list order; `mapInsertL` is Go map assignment (replace the
binding if the key exists, otherwise append), `mapLookupL` is Go map
indexing. A Go `map[string]struct{}` set accumulator is a `List String`
built with `setInsert`. -/

/-- Go map lookup. -/
def mapLookupL {α : Type} (k : String) : List (String × α) → Option α
  | [] => none
  | (k', v) :: rest => if k' = k then some v else mapLookupL k rest

/-- Go map assignment `m[k] = v`. -/
def mapInsertL {α : Type} (k : String) (v : α) : List (String × α) → List (String × α)
  | [] => [(k, v)]
  | (k', v') :: rest =>
    if k' = k then (k', v) :: rest else (k', v') :: mapInsertL k v rest

/-- Go set insertion `set[x] = struct{}{}`. -/
def setInsert (s : List String) (x : String) : List String :=
  if x ∈ s then s else s ++ [x]

/-- Go `sort.Strings` (byte-lexicographic sort). -/
def sortStrings (l : List String) : List String :=
  List.insertionSort strLeR l

/-- `setToSortedSlice` from `parsers.go`: list the members of a string
set and sort them. -/
def setToSortedSlice (s : List String) : List String := sortStrings s

/-! ## The Go module parser (`parseGoModDeps`, parsers.go) -/

/-- Go `strings.TrimPrefix`. -/
def goTrimPre (s pre : String) : String :=
  if strHasPrefix s pre then ⟨s.data.drop pre.data.length⟩ else s

/-- State of the line loop of `parseGoModDeps`. -/
structure GoModSt where
  inBlock : Bool
  deps : List String

/-- One iteration of the line loop of `parseGoModDeps` (parsers.go,
lines 81-150): trim, strip `//` comments, track `require ( ... )`
blocks, and record `name@version` pairs and `replace` directives. -/
def goModLine (st : GoModSt) (raw : String) : GoModSt :=
  let ln := trimSpace raw
  if ln = "" then st
  else
    let ln :=
      match splitOnceL "//".data ln.data with
      | some (bef, _) => trimSpace ⟨bef⟩
      | none => ln
    if ln = "" then st
    else if strHasPrefix ln "require (" || ln = "require(" then
      { st with inBlock := true }
    else if st.inBlock then
      if strHasPrefix ln ")" then { st with inBlock := false }
      else
        match fields ln with
        | n :: v :: _ => { st with deps := setInsert st.deps (n ++ "@" ++ v) }
        | _ => st
    else if strHasPrefix ln "require " then
      let rest := trimSpace (goTrimPre ln "require")
      match fields rest with
      | n :: v :: _ => { st with deps := setInsert st.deps (n ++ "@" ++ v) }
      | _ => st
    else if strHasPrefix ln "replace " then
      let rest := trimSpace (goTrimPre ln "replace")
      match splitOnceL "=>".data rest.data with
      | some (lhs, rhs) =>
        match fields (trimSpace ⟨lhs⟩), fields (trimSpace ⟨rhs⟩) with
        | lf :: _, rf :: _ =>
          { st with deps := setInsert st.deps (lf ++ " => " ++ rf) }
        | _, _ => st
      | none =>
        match fields rest with
        | f :: t :: _ => { st with deps := setInsert st.deps (f ++ " => " ++ t) }
        | _ => st
    else st

/-- `parseGoModDeps` (parsers.go): the argument is the file content,
`none` standing for a read error (`os.ReadFile` failing). -/
def parseGoModDeps (content : Option String) : List String :=
  match content with
  | none => []
  | some text =>
    setToSortedSlice ((splitLines text).foldl goModLine ⟨false, []⟩).deps

/-! ## The Node manifest parser (`parsePackageJSONDeps`, parsers.go)

`encoding/json` is external to the repository, so a decoded JSON
document is modelled by `JVal` and the decoder itself
(`json.Unmarshal`) by an abstract function `String → Option JVal`
(`none` = malformed input). Go's `%v` rendering of non-string decoded
values is likewise abstracted as a function `JVal → String`. -/

inductive JVal where
  | str (s : String) : JVal
  | num (render : String) : JVal
  | bool (b : Bool) : JVal
  | null : JVal
  | arr (elems : List JVal) : JVal
  | obj (fields : List (String × JVal)) : JVal

/-- The version rendering of `parsePackageJSONDeps`: a string value is
used verbatim, any other value goes through `fmt.Sprintf`'s `%v`
(abstracted as `fmtV`). -/
def jver (fmtV : JVal → String) : JVal → String
  | JVal.str s => s
  | v => fmtV v

/-- Go type assertion `v.(map[string]interface{})`. -/
def jsonFields : JVal → Option (List (String × JVal))
  | JVal.obj fs => some fs
  | _ => none

/-- The inner loop of `parsePackageJSONDeps` over one of the two
dependency maps: `set[fmt.Sprintf("%s@%s", k, ver)] = struct{}{}`. -/
def packDepFold (fmtV : JVal → String) (st : List String)
    (m : List (String × JVal)) : List String :=
  m.foldl (fun st kv => setInsert st (kv.1 ++ "@" ++ jver fmtV kv.2)) st

/-- `parsePackageJSONDeps` (parsers.go): `decode` models
`json.Unmarshal` into `map[string]interface{}` (`none` both for
malformed JSON and for a document whose top level is not an object),
`fmtV` models `%v`. -/
def parsePackageJSONDeps (decode : String → Option JVal) (fmtV : JVal → String)
    (content : Option String) : List String :=
  match content with
  | none => []
  | some s =>
    match decode s with
    | some (JVal.obj data) =>
      let set1 :=
        match mapLookupL "dependencies" data with
        | some v =>
          match jsonFields v with
          | some deps => packDepFold fmtV [] deps
          | none => []
        | none => []
      let set2 :=
        match mapLookupL "devDependencies" data with
        | some v =>
          match jsonFields v with
          | some dev => packDepFold fmtV set1 dev
          | none => set1
        | none => set1
      setToSortedSlice set2
    | _ => []

/-! ## Maven regex scanners

The POM parsers of parsers.go are driven by a handful of fixed regular
expressions over an XML-like text. Each is translated into an explicit
scanner with Go's leftmost-first, non-overlapping match semantics. -/

/-- First submatch of `(?s)<tag>(.*?)</tag>` (`FindStringSubmatch`):
text between the first opening tag that is followed by a closing tag
and the first closing tag after it. -/
def extractFirstBlock (openT closeT : String) (s : String) : Option String :=
  match splitOnceL openT.data s.data with
  | none => none
  | some (_, rest) =>
    match splitOnceL closeT.data rest with
    | none => none
    | some (inner, _) => some ⟨inner⟩

/-- All matches of `(?s)<dependency>(.*?)</dependency>`
(`FindAllStringSubmatch`), continuing after each match; `fuel` bounds
the recursion and is instantiated with the text length. -/
def findAllBlocksAux (openT closeT : List Char) : Nat → List Char → List (List Char)
  | 0, _ => []
  | Nat.succ fuel, s =>
    match splitOnceL openT s with
    | none => []
    | some (_, rest) =>
      match splitOnceL closeT rest with
      | none => []
      | some (inner, rest2) => inner :: findAllBlocksAux openT closeT fuel rest2

/-- All inner captures of `(?s)<openT>(.*?)</closeT>` in `s`. -/
def findAllBlocks (openT closeT : String) (s : String) : List String :=
  (findAllBlocksAux openT.data closeT.data s.data.length s.data).map (fun l => ⟨l⟩)

/-- Attempt to match `openT\s*([^<\s]+)\s*closeT` at the start of `s`
(one candidate position of the backtracking search). -/
def tryTagAt (openT closeT : List Char) (s : List Char) : Option (List Char) :=
  if openT.isPrefixOf s then
    let r1 := (s.drop openT.length).dropWhile reWs
    let val := r1.takeWhile (fun c => !reWs c && c ≠ '<')
    if val = [] then none
    else if closeT.isPrefixOf ((r1.drop val.length).dropWhile reWs) then some val
    else none
  else none

/-- First match of `openT\s*([^<\s]+)\s*closeT` in `s` (leftmost
position at which the whole pattern matches). -/
def findTagValAux (openT closeT : List Char) : List Char → Option (List Char)
  | [] => none
  | c :: rest =>
    match tryTagAt openT closeT (c :: rest) with
    | some v => some v
    | none => findTagValAux openT closeT rest

/-- Field extraction used on `<dependency>` blocks: first match of
`<tag>\s*([^<\s]+)\s*</tag>`, trimmed, or `""` when the pattern does
not match (the `g`/`a`/`v` variables of parsers.go start out `""`). -/
def findTagVal (tag : String) (s : String) : String :=
  match findTagValAux ("<" ++ tag ++ ">").data ("</" ++ tag ++ ">").data s.data with
  | some v => trimSpace ⟨v⟩
  | none => ""

/-- Attempt to match the property-pair pattern
`(?s)<([^>\s]+)>\s*([^<]+)\s*</[^>]+>` at the start of `s`; on success
returns the two captures (tag name and raw value chunk, the latter
still to be trimmed) and the rest of the text after the match. -/
def tryPairAt (s : List Char) : Option ((List Char × List Char) × List Char) :=
  match s with
  | '<' :: rest =>
    let tag := rest.takeWhile (fun c => !reWs c && c ≠ '>')
    if tag = [] then none
    else
      match rest.drop tag.length with
      | '>' :: r2 =>
        let chunk := r2.takeWhile (fun c => c ≠ '<')
        if chunk = [] then none
        else
          match r2.drop chunk.length with
          | '<' :: '/' :: r3 =>
            let cls := r3.takeWhile (fun c => c ≠ '>')
            if cls = [] then none
            else
              match r3.drop cls.length with
              | '>' :: r4 => some ((tag, chunk), r4)
              | _ => none
          | _ => none
      | _ => none
  | _ => none

/-- All matches of the property-pair pattern (`FindAllStringSubmatch`):
scan left to right, emit each match and continue after it. -/
def scanPairsAux : Nat → List Char → List (List Char × List Char)
  | 0, _ => []
  | Nat.succ fuel, s =>
    match tryPairAt s with
    | some (kv, rest) => kv :: scanPairsAux fuel rest
    | none =>
      match s with
      | [] => []
      | _ :: rest => scanPairsAux fuel rest

/-- `parsePomProperties` (parsers.go): extract the first
`<properties>` block and turn every matched `<name>value</name>` into
a map entry `TrimSpace(name) → TrimSpace(value)`. -/
def parsePomProperties (content : Option String) : List (String × String) :=
  match content with
  | none => []
  | some s =>
    match extractFirstBlock "<properties>" "</properties>" s with
    | none => []
    | some inner =>
      (scanPairsAux inner.data.length inner.data).foldl
        (fun m kv => mapInsertL (trimSpace ⟨kv.1⟩) (trimSpace ⟨kv.2⟩) m) []

/-- The `g`, `a`, `v` extraction shared by `parsePomDependencyManagement`
and `parsePomDeps`. -/
def depTriple (block : String) : String × String × String :=
  (findTagVal "groupId" block, findTagVal "artifactId" block,
   findTagVal "version" block)

/-- One `<dependency>` block of a `<dependencyManagement>` section:
`mmap[g:a] = v`, but only when both `g` and `a` are present
(parsers.go, line 260). -/
def dmAdd (m : List (String × String)) (block : String) : List (String × String) :=
  if (depTriple block).1 ≠ "" && (depTriple block).2.1 ≠ "" then
    mapInsertL ((depTriple block).1 ++ ":" ++ (depTriple block).2.1)
      (depTriple block).2.2 m
  else m

/-- `parsePomDependencyManagement` (parsers.go). -/
def parsePomDependencyManagement (content : Option String) : List (String × String) :=
  match content with
  | none => []
  | some s =>
    match extractFirstBlock "<dependencyManagement>" "</dependencyManagement>" s with
    | none => []
    | some inner => (findAllBlocks "<dependency>" "</dependency>" inner).foldl dmAdd []

/-- The rendering step of `parsePomDeps` (parsers.go, lines 359-368):
a version containing `${` is treated as unspecified and dropped; the
key is `g:a@v` when a version remains and `g:a` otherwise. -/
def pomDepKey (g a v : String) : String :=
  let v2 := if strContains v "$\x7b" then "" else v
  if v2 ≠ "" then g ++ ":" ++ a ++ "@" ++ v2 else g ++ ":" ++ a

/-- One `<dependency>` block of `parsePomDeps`: the block is skipped
only when `g` and `a` are BOTH empty (parsers.go, line 356). -/
def depAdd (ds : List String) (block : String) : List String :=
  if (depTriple block).1 = "" && (depTriple block).2.1 = "" then ds
  else
    setInsert ds
      (pomDepKey (depTriple block).1 (depTriple block).2.1 (depTriple block).2.2)

/-- `parsePomDeps` (parsers.go). Its Go signature also receives
`repoRoot`, documented in the source as "kept for signature
compatibility" and unused; the aggregated tables are never consulted. -/
def parsePomDeps (content : Option String) : List String :=
  match content with
  | none => []
  | some s =>
    setToSortedSlice ((findAllBlocks "<dependency>" "</dependency>" s).foldl depAdd [])

/-! ## Repository trees and the two walks

`filepath.Walk` over a directory tree is modelled by an explicit tree
of named files and directories, visited in order. The walk inside
`detectPackageManagers` (discovery.go) returns `filepath.SkipDir` for
directories named `.git`; the walk inside `aggregatePomData`
(parsers.go) has no such case. -/

mutual
inductive FTree where
  | file (name content : String) : FTree
  | dir (name : String) (children : FForest) : FTree
inductive FForest where
  | nil : FForest
  | cons (t : FTree) (ts : FForest) : FForest
end

mutual
/-- Files visited by `filepath.Walk` as called in `aggregatePomData`:
every file of the tree, in walk order, with its full path. -/
def walkAllTree : String → FTree → List (String × String)
  | pre, .file n c => [(pre ++ "/" ++ n, c)]
  | pre, .dir n ts => walkAllForest (pre ++ "/" ++ n) ts
def walkAllForest : String → FForest → List (String × String)
  | _, .nil => []
  | pre, .cons t ts => walkAllTree pre t ++ walkAllForest pre ts
end

mutual
/-- Files visited by the walk of `detectPackageManagers` (discovery.go):
directories named `.git` are skipped with `filepath.SkipDir`. -/
def detectWalkTree : String → FTree → List (String × String)
  | pre, .file n c => [(pre ++ "/" ++ n, c)]
  | pre, .dir n ts =>
    if n = ".git" then [] else detectWalkForest (pre ++ "/" ++ n) ts
def detectWalkForest : String → FForest → List (String × String)
  | _, .nil => []
  | pre, .cons t ts => detectWalkTree pre t ++ detectWalkForest pre ts
end

/-- The first-writer-wins merge of `aggregatePomData` (parsers.go,
lines 305-315): each entry of the per-file map is inserted only if its
key is absent from the accumulated table. -/
def mergeIfAbsent (acc m : List (String × String)) : List (String × String) :=
  m.foldl (fun ac kv => if (mapLookupL kv.1 ac).isSome then ac else ac ++ [kv]) acc

/-- One visited file of `aggregatePomData`'s walk: files whose path
ends in `pom.xml` are parsed and merged first-writer-wins into the two
tables, every other file is ignored. -/
def aggStep (acc : List (String × String) × List (String × String))
    (pc : String × String) :
    List (String × String) × List (String × String) :=
  if strHasSuffix pc.1 "pom.xml" then
    (mergeIfAbsent acc.1 (parsePomProperties (some pc.2)),
     mergeIfAbsent acc.2 (parsePomDependencyManagement (some pc.2)))
  else acc

/-- `aggregatePomData` (parsers.go): walk the whole repository tree
(no `.git` skip) and merge the properties and dependency-management
entries of every file whose path ends in `pom.xml`, first writer wins. -/
def aggregatePomData (root : String) (f : FForest) :
    List (String × String) × List (String × String) :=
  (walkAllForest root f).foldl aggStep ([], [])

/-! ## The Gradle build-script parser (`parseGradleDeps`, parsers.go) -/

/-- Go `strings.Split` on a single separator char. -/
def splitCh (sep : Char) : List Char → List (List Char)
  | [] => [[]]
  | c :: rest =>
    if c = sep then [] :: splitCh sep rest
    else
      match splitCh sep rest with
      | [] => [[c]]
      | l :: ls => (c :: l) :: ls

/-- Go `strings.Join(parts, ":")` on char lists. -/
def joinColon : List (List Char) → List Char
  | [] => []
  | [l] => l
  | l :: ls => l ++ ':' :: joinColon ls

/-- First alternative of a list for which `f` yields a value
(regexp alternation at a fixed start position). -/
def firstSomeL {α β : Type} (f : α → Option β) : List α → Option β
  | [] => none
  | a :: rest =>
    match f a with
    | some b => some b
    | none => firstSomeL f rest

/-- The configuration keywords of the string-notation Gradle pattern,
in alternation order. -/
def gradleSimpleKws : List String :=
  ["implementation", "api", "compile", "compileOnly", "runtimeOnly", "runtime",
   "testImplementation", "testCompile", "testRuntimeOnly", "testRuntime"]

/-- The configuration keywords of the map-notation Gradle pattern, in
alternation order. -/
def gradleMapKws : List String :=
  ["implementation", "api", "compile", "testImplementation", "testCompile",
   "runtimeOnly", "testRuntimeOnly"]

/-- Continuation of the string-notation pattern after the keyword:
`\s*\(?['"]([^'"\)]+)['"]\)?`, returning the capture. -/
def gradleSimpleRest (r : List Char) : Option (List Char) :=
  let r1 := r.dropWhile reWs
  let r2 := match r1 with
    | '(' :: t => t
    | _ => r1
  match r2 with
  | q :: t =>
    if q = '\'' || q = '"' then
      let cap := t.takeWhile (fun c => c ≠ '\'' && c ≠ '"' && c ≠ ')')
      if cap = [] then none
      else
        match t.drop cap.length with
        | q2 :: _ => if q2 = '\'' || q2 = '"' then some cap else none
        | [] => none
    else none
  | [] => none

/-- One line against the string-notation pattern
`(?m)^\s*(?:KW)\s*\(?['"]([^'"\)]+)['"]\)?`. -/
def gradleSimpleLine (line : String) : Option (List Char) :=
  let r := line.data.dropWhile reWs
  firstSomeL
    (fun kw =>
      if kw.data.isPrefixOf r then gradleSimpleRest (r.drop kw.data.length) else none)
    gradleSimpleKws

/-- Space or tab (the `[ \t]` class of the map-notation pattern). -/
def tabSp (c : Char) : Bool := c = ' ' || c = '\t'

/-- One line against the map-notation pattern
`(?m)^[ \t]*(?:KW)[ \t]+([^\n]+)`, returning the capture. -/
def gradleMapLine (line : String) : Option (List Char) :=
  let r := line.data.dropWhile tabSp
  firstSomeL
    (fun kw =>
      if kw.data.isPrefixOf r then
        let t := r.drop kw.data.length
        let run := t.takeWhile tabSp
        if run = [] then none
        else
          let rest := t.drop run.length
          if rest ≠ [] then some rest
          else if 2 ≤ run.length then
            match run.getLast? with
            | some c2 => some [c2]
            | none => none
          else none
      else none)
    gradleMapKws

/-- Attempt `word\s*:\s*['"]([^'"]+)['"]` at the start of `s`. -/
def tryKVAt (word : List Char) (s : List Char) : Option (List Char) :=
  if word.isPrefixOf s then
    match (s.drop word.length).dropWhile reWs with
    | ':' :: r2 =>
      match r2.dropWhile reWs with
      | q :: t =>
        if q = '\'' || q = '"' then
          let cap := t.takeWhile (fun c => c ≠ '\'' && c ≠ '"')
          if cap = [] then none
          else
            match t.drop cap.length with
            | q2 :: _ => if q2 = '\'' || q2 = '"' then some cap else none
            | [] => none
        else none
      | [] => none
    | _ => none
  else none

/-- First match of `word\s*:\s*['"]([^'"]+)['"]` in `s`. -/
def findKV (word : List Char) : List Char → Option (List Char)
  | [] => none
  | c :: rest =>
    match tryKVAt word (c :: rest) with
    | some v => some v
    | none => findKV word rest

/-- String-notation record: split the capture on `:`; two leading parts
are group and artifact, any further parts re-joined with `:` form the
version. -/
def gradleSimpleAdd (ds : List String) (line : String) : List String :=
  match gradleSimpleLine line with
  | none => ds
  | some cap =>
    match splitCh ':' cap with
    | g :: a :: rest =>
      let ver := joinColon rest
      if ver ≠ [] then setInsert ds (⟨g⟩ ++ ":" ++ ⟨a⟩ ++ "@" ++ ⟨ver⟩)
      else setInsert ds (⟨g⟩ ++ ":" ++ ⟨a⟩)
    | _ => ds

/-- Map-notation record: search `group:`, `name:`, `version:` values in
the captured line; require group and name. -/
def gradleMapAdd (ds : List String) (line : String) : List String :=
  match gradleMapLine line with
  | none => ds
  | some cap =>
    let g : String := match findKV "group".data cap with | some v => ⟨v⟩ | none => ""
    let a : String := match findKV "name".data cap with | some v => ⟨v⟩ | none => ""
    let v : String := match findKV "version".data cap with | some v => ⟨v⟩ | none => ""
    if g ≠ "" && a ≠ "" then
      if v ≠ "" then setInsert ds (g ++ ":" ++ a ++ "@" ++ v)
      else setInsert ds (g ++ ":" ++ a)
    else ds

/-- `parseGradleDeps` (parsers.go): both notations scanned over the
same text, results deduplicated in one set and sorted. -/
def parseGradleDeps (content : Option String) : List String :=
  match content with
  | none => []
  | some s =>
    let lines := splitLines s
    setToSortedSlice (lines.foldl gradleMapAdd (lines.foldl gradleSimpleAdd []))

/-! ## The aggregation compiler (`analyzeRepository`, output.go)

The filesystem is a finite map from absolute path to content
(`fsRead` = `os.ReadFile`, `none` = read error); `managers` is the
ecosystem → file-paths map produced by the external detector, embedded
as an association list whose order stands for Go's map iteration
order. The parsers whose definitions are not part of the analysed
sources (`parseCargoTomlDeps`, `parseRequirementsTxtDeps`,
`parseSetupPyDeps`, `parsePackageSwiftDeps`, `parseGemfileDeps`) and
the two `encoding/json` abstractions are passed in an `Env`. -/

abbrev FS := List (String × String)

/-- `os.ReadFile`. -/
def fsRead (fs : FS) (p : String) : Option String := mapLookupL p fs

/-- External collaborators of `analyzeRepository`: the JSON decoder
and `%v` renderer of `parsePackageJSONDeps`, and the five per-ecosystem
parsers whose sources are not part of the analysed files. Modelled from
the spec: per §4.3 every such parser maps file content to a sorted
dependency list and an unreadable file (`none`) contributes an empty
list. -/
structure Env where
  decode : String → Option JVal
  fmtV : JVal → String
  rustParse : Option String → List String
  reqParse : Option String → List String
  setupParse : Option String → List String
  swiftParse : Option String → List String
  rubyParse : Option String → List String

/-- `niceName` (parsers.go). -/
def niceName (key : String) : String :=
  if key = "go" then "Go"
  else if key = "node/npm" then "Node"
  else if key = "node/yarn" then "Yarn"
  else if key = "python" then "Python"
  else if key = "maven" then "Maven"
  else if key = "gradle" then "Gradle"
  else if key = "composer/php" then "Composer"
  else if key = "ruby" then "Ruby"
  else if key = "rust" then "Rust"
  else if key = "swift" then "Swift"
  else key

/-- `filepath.Rel(root, p)` as used on detector-produced paths: strip
the `root ++ "/"` prefix; on failure the source falls back to `p`
itself. -/
def relPath (root p : String) : String :=
  if strHasPrefix p (root ++ "/") then ⟨p.data.drop (root ++ "/").data.length⟩
  else p

/-- `filepath.Base`. -/
def goBase (p : String) : String :=
  match (splitCh '/' p.data).reverse.dropWhile (fun l => l = []) with
  | [] => if p = "" then "." else "/"
  | l :: _ => ⟨l⟩

/-- Update the value bound to `k` (Go `m[k][f] = v` on a nested map:
the outer binding exists and is modified in place). -/
def mapAdjust {α : Type} (k : String) (f : α → α) : List (String × α) → List (String × α)
  | [] => []
  | (k', v) :: rest => if k' = k then (k', f v) :: rest else (k', v) :: mapAdjust k f rest

/-- The per-file loop shared by every non-rust case of the switch:
`perFile[rel] = parse(p)` for each path. -/
def perFileWith (root : String) (parseP : String → List String)
    (paths : List String) : List (String × List String) :=
  paths.foldl (fun m p => mapInsertL (relPath root p) (parseP p) m) []

/-- The switch of `analyzeRepository` (output.go, lines 63-147) for
every case except `"rust"`: which parser fills `perFile`. -/
def ecoPerFile (env : Env) (root : String) (fs : FS) (k : String)
    (paths : List String) : List (String × List String) :=
  if k = "go" then perFileWith root (fun p => parseGoModDeps (fsRead fs p)) paths
  else if k = "node/npm" then
    perFileWith root (fun p => parsePackageJSONDeps env.decode env.fmtV (fsRead fs p)) paths
  else if k = "maven" then perFileWith root (fun p => parsePomDeps (fsRead fs p)) paths
  else if k = "gradle" then perFileWith root (fun p => parseGradleDeps (fsRead fs p)) paths
  else if k = "python" then
    perFileWith root
      (fun p =>
        if strHasSuffix p "setup.py" then env.setupParse (fsRead fs p)
        else env.reqParse (fsRead fs p)) paths
  else if k = "swift" then perFileWith root (fun p => env.swiftParse (fsRead fs p)) paths
  else if k = "ruby" then perFileWith root (fun p => env.rubyParse (fsRead fs p)) paths
  else perFileWith root (fun _ => []) paths

/-- The `"rust"` case of the switch (output.go, lines 96-110): a
shadowing `perFile` that only records files whose parsed list is
non-empty. -/
def rustPerFile (env : Env) (root : String) (fs : FS)
    (paths : List String) : List (String × List String) :=
  paths.foldl
    (fun m p =>
      let ds := env.rustParse (fsRead fs p)
      if 0 < ds.length then mapInsertL (relPath root p) ds m else m) []

/-- One iteration of the `for k, paths := range managers` loop filling
`a.Dependencies` (output.go, lines 60-154): run the switch, then ensure
the ecosystem key exists, then copy the (outer) `perFile` into it. In
the `"rust"` case the switch assigns its local non-empty `perFile`
directly and the outer `perFile` stays empty. -/
def depsStep (env : Env) (root : String) (fs : FS)
    (acc : List (String × List (String × List String))) (e : String × List String) :
    List (String × List (String × List String)) :=
  let eco := niceName e.1
  if e.1 = "rust" then
    let inner := rustPerFile env root fs e.2
    let acc1 := if 0 < inner.length then mapInsertL eco inner acc else acc
    if (mapLookupL eco acc1).isSome then acc1 else mapInsertL eco [] acc1
  else
    let pf := ecoPerFile env root fs e.1 e.2
    let acc1 := if (mapLookupL eco acc).isSome then acc else mapInsertL eco [] acc
    pf.foldl (fun ac fd => mapAdjust eco (fun inner => mapInsertL fd.1 fd.2 inner) ac) acc1

/-- The `Analysis` struct (output.go). -/
structure AnalysisL where
  repo : String
  typ : List String
  deps : List (String × List (String × List String))
  files : List String
deriving DecidableEq

/-- `analyzeRepository` (output.go). -/
def analyzeRepository (env : Env) (repoURL root : String)
    (managers : List (String × List String)) (fs : FS) : AnalysisL :=
  let repo := if repoURL ≠ "" then repoURL else goBase root
  let typ := sortStrings (managers.map (fun e => niceName e.1))
  let fileSet :=
    managers.foldl (fun s e => e.2.foldl (fun s2 p => setInsert s2 (relPath root p)) s) []
  let files := sortStrings fileSet
  let deps := managers.foldl (depsStep env root fs) []
  ⟨repo, typ, deps, files⟩

/-! ## Canonical JSON form

`json.MarshalIndent` renders Go maps with their keys sorted, so the
byte output of the JSON report is determined by the `AnalysisL` value
with both levels of the dependency map sorted by key. -/

/-- Comparison of association-list entries by key (the order in which
`encoding/json` renders a Go map's keys). -/
def keyLe {α : Type} (a b : String × α) : Prop := strLeR a.1 b.1

instance {α : Type} : DecidableRel (keyLe (α := α)) := fun a b => by
  unfold keyLe
  infer_instance

/-- Insertion sort of an association list by key. -/
def sortPairs {α : Type} (l : List (String × α)) : List (String × α) :=
  List.insertionSort keyLe l

/-- Both levels of the dependency map in JSON key order. -/
def canonDeps (d : List (String × List (String × List String))) :
    List (String × List (String × List String)) :=
  sortPairs (d.map (fun kv => (kv.1, sortPairs kv.2)))

/-- The `AnalysisL` value up to Go map iteration order: what the JSON
bytes of the report are a function of. -/
def canonAnalysis (a : AnalysisL) : AnalysisL :=
  ⟨a.repo, a.typ, canonDeps a.deps, a.files⟩

/-! ## Concrete scenarios shared by the counterexamples -/

/-- Environment for the concrete scenarios: the JSON decoder rejects
everything and the five external parsers return the empty list, the
value the spec's never-fail contract forces on unreadable input. -/
def env0 : Env :=
  ⟨fun _ => none, fun _ => "", fun _ => [], fun _ => [], fun _ => [],
   fun _ => [], fun _ => []⟩

/-- POM A of the spec's placeholder scenario: declares
`foo.version = 2.3` in its properties. -/
def pomA : String :=
  "<project><properties><foo.version>2.3</foo.version></properties></project>"

/-- POM B of the spec's placeholder scenario: a dependency whose
version is the placeholder for `foo.version`. -/
def pomB : String :=
  "<project><dependencies><dependency><groupId>g</groupId><artifactId>a</artifactId><version>$\x7bfoo.version\x7d</version></dependency></dependencies></project>"

/-- The two POMs on disk. -/
def mavenFS : FS := [("r/a/pom.xml", pomA), ("r/b/pom.xml", pomB)]

/-- The same two POMs as a repository tree (for the aggregator). -/
def mavenForest : FForest :=
  FForest.cons (FTree.dir "a" (FForest.cons (FTree.file "pom.xml" pomA) FForest.nil))
    (FForest.cons (FTree.dir "b" (FForest.cons (FTree.file "pom.xml" pomB) FForest.nil))
      FForest.nil)

/-- The detector output for the scenario. -/
def mavenManagers : List (String × List String) :=
  [("maven", ["r/a/pom.xml", "r/b/pom.xml"])]

/-- A dependency block with a `groupId` and a `version` but no
`artifactId`. -/
def pomMissingArtifact : String :=
  "<dependency><groupId>g</groupId><version>1</version></dependency>"

/-- A repository whose only POM lives under `.git`. -/
def gitForest : FForest :=
  FForest.cons
    (FTree.dir ".git"
      (FForest.cons (FTree.file "pom.xml" "<properties><k>1</k></properties>") FForest.nil))
    FForest.nil

set_option maxRecDepth 40000

/-- The `dependencies` map of a decoded manifest (empty when the key
is absent or its value is not an object), as read by
`parsePackageJSONDeps`. -/
def jdepsOf (data : List (String × JVal)) : List (String × JVal) :=
  match mapLookupL "dependencies" data with
  | some v => (jsonFields v).getD []
  | none => []

/-- The `devDependencies` map of a decoded manifest. -/
def jdevOf (data : List (String × JVal)) : List (String × JVal) :=
  match mapLookupL "devDependencies" data with
  | some v => (jsonFields v).getD []
  | none => []

/-- The decoded manifest of the C8 witness. -/
def cNodeData : List (String × JVal) :=
  [("dependencies", JVal.obj [("react", JVal.str "18")]),
   ("devDependencies", JVal.obj [("jest", JVal.str "29")])]

/-- A decoder accepting everything but the text `bad`. -/
def cDecode : String → Option JVal :=
  fun t => if t = "bad" then none else some (JVal.obj cNodeData)

/-- One line of a constructed `require ( ... )` block body. -/
inductive GoLine where
  | entry (n v : String) : GoLine
  | comment (c : String) : GoLine
  | blank : GoLine

/-- Text of a body line. -/
def renderGoLine : GoLine → String
  | .entry n v => n ++ " " ++ v
  | .comment c => "//" ++ c
  | .blank => ""

/-- The `name version` pairs among the body lines. -/
def goEntries : List GoLine → List (String × String)
  | [] => []
  | .entry n v :: rest => (n, v) :: goEntries rest
  | .comment _ :: rest => goEntries rest
  | .blank :: rest => goEntries rest

/-- Go `strings.Join(lines, "\n")`. -/
def joinNl : List String → String
  | [] => ""
  | [l] => l
  | l :: ls => l ++ "\n" ++ joinNl ls

/-- A go.mod file consisting of one `require ( ... )` block. -/
def mkGoMod (ls : List GoLine) : String :=
  joinNl ("require (" :: ls.map renderGoLine ++ [")"])

/-- A module-path or version token: non-empty, free of whitespace. -/
def GoTok (s : String) : Prop := s.data ≠ [] ∧ ∀ c ∈ s.data, goWs c = false

/-- Conditions under which a body line is handled by the block branch
of the line loop: tokens are whitespace-free, the line holds no `//`,
does not itself look like a block opener, and does not start with `)`. -/
def GoLineOK : GoLine → Prop
  | .entry n v => GoTok n ∧ GoTok v ∧ strContains (n ++ " " ++ v) "//" = false ∧
      strHasPrefix (n ++ " " ++ v) "require (" = false ∧
      n.data.head? ≠ some ')'
  | .comment c => '\n' ∉ c.data
  | .blank => True

instance : DecidablePred GoLineOK := fun gl => by
  cases gl with
  | entry n v => unfold GoLineOK GoTok; infer_instance
  | comment c => unfold GoLineOK; infer_instance
  | blank => unfold GoLineOK; infer_instance

/-- The require block of the C9 witness. -/
def cGoLines : List GoLine :=
  [GoLine.entry "github.com/x/y" "v1.2.3", GoLine.comment " note", GoLine.blank,
   GoLine.entry "a" "v1"]

/-- The pattern `pat` occurs in `s` at position `i`. -/
def occursAt (pat s : List Char) (i : Nat) : Prop :=
  pat.isPrefixOf (s.drop i) = true

instance (pat s : List Char) (i : Nat) : Decidable (occursAt pat s i) := by
  unfold occursAt
  infer_instance

/-- The per-ecosystem file map an entry of the managers map ends up
bound to in `a.Dependencies`. -/
def ecoFileMap (env : Env) (root : String) (fs : FS) (e : String × List String) :
    List (String × List String) :=
  if e.1 = "rust" then rustPerFile env root fs e.2
  else ecoPerFile env root fs e.1 e.2

/-- Distinctness of the ecosystem display names of a managers map
(true of the detector's output, whose keys are the fixed tags). -/
def NodupEcos (ms : List (String × List String)) : Prop :=
  (ms.map (fun e => niceName e.1)).Nodup

instance (ms : List (String × List String)) : Decidable (NodupEcos ms) := by
  unfold NodupEcos
  infer_instance

/-- Managers map of the C6 witness. -/
def cMs : List (String × List String) := [("go", ["r/go.mod"]), ("rust", ["r/c.toml"])]

/-- Filesystem of the C6 witness: only the go.mod exists. -/
def cFs : FS := [("r/go.mod", "require a v1\n")]

/-- The spec's contract for the five external parsers: each returns a
sorted sequence. -/
def EnvSorted (env : Env) : Prop :=
  (∀ c, List.Sorted strLeR (env.rustParse c)) ∧
  (∀ c, List.Sorted strLeR (env.reqParse c)) ∧
  (∀ c, List.Sorted strLeR (env.setupParse c)) ∧
  (∀ c, List.Sorted strLeR (env.swiftParse c)) ∧
  (∀ c, List.Sorted strLeR (env.rubyParse c))

/-- Equality of two manager entries up to filesystem walk order: the
same ecosystem key with the same set of discovered paths. -/
def MRel (a b : String × List String) : Prop :=
  a.1 = b.1 ∧ a.2.Perm b.2

/-- Two manager maps representing the same detector output observed
under different iteration orders: a permutation of the entries (Go map
iteration order) composed with a per-entry permutation of each path
list (filesystem walk order). -/
def MPerm (ms1 ms2 : List (String × List String)) : Prop :=
  ∃ mid, ms1.Perm mid ∧ List.Forall₂ MRel mid ms2

/-- First observation order of the C7 witness's managers map. -/
def c7m1 : List (String × List String) :=
  [("go", ["r/go.mod"]), ("maven", ["r/a/pom.xml", "r/b/pom.xml"])]

/-- Second observation order: the entries permuted and maven's paths
reversed. -/
def c7m2 : List (String × List String) :=
  [("maven", ["r/b/pom.xml", "r/a/pom.xml"]), ("go", ["r/go.mod"])]

/-- The intermediate order relating [c7m1] to [c7m2]: entries already
in [c7m2]'s order, paths still in [c7m1]'s. -/
def c7mid : List (String × List String) :=
  [("maven", ["r/a/pom.xml", "r/b/pom.xml"]), ("go", ["r/go.mod"])]

/-! ## Lawfulness of the embedded string order -/

theorem lexLeb_total (a b : List Char) : lexLeb a b = true ∨ lexLeb b a = true := by
  induction a generalizing b with
  | nil => left; rfl
  | cons x xs ih =>
    cases b with
    | nil => right; rfl
    | cons y ys =>
      rcases Nat.lt_trichotomy x.toNat y.toNat with h | h | h
      · left; simp [lexLeb, h]
      · have hxy : ¬ x.toNat < y.toNat := by omega
        have hyx : ¬ y.toNat < x.toNat := by omega
        rcases ih ys with h2 | h2
        · left; simp [lexLeb, hxy, hyx, h2]
        · right; simp [lexLeb, hxy, hyx, h2]
      · right; simp [lexLeb, h]

theorem lexLeb_trans {a b c : List Char} (h1 : lexLeb a b = true)
    (h2 : lexLeb b c = true) : lexLeb a c = true := by
  induction a generalizing b c with
  | nil => rfl
  | cons x xs ih =>
    cases b with
    | nil => simp [lexLeb] at h1
    | cons y ys =>
      cases c with
      | nil => simp [lexLeb] at h2
      | cons z zs =>
        by_cases hxy : x.toNat < y.toNat
        · by_cases hyz : y.toNat < z.toNat
          · simp [lexLeb, show x.toNat < z.toNat by omega]
          · by_cases hzy : z.toNat < y.toNat
            · simp [lexLeb, hyz, hzy] at h2
            · have : y.toNat = z.toNat := by omega
              simp [lexLeb, show x.toNat < z.toNat by omega]
        · by_cases hyx : y.toNat < x.toNat
          · simp [lexLeb, hxy, hyx] at h1
          · have hxy' : x.toNat = y.toNat := by omega
            by_cases hyz : y.toNat < z.toNat
            · simp [lexLeb, show x.toNat < z.toNat by omega]
            · by_cases hzy : z.toNat < y.toNat
              · simp [lexLeb, hyz, hzy] at h2
              · have hyz' : y.toNat = z.toNat := by omega
                have hxz : ¬ x.toNat < z.toNat := by omega
                have hzx : ¬ z.toNat < x.toNat := by omega
                simp [lexLeb, hxy, hyx] at h1
                simp [lexLeb, hyz, hzy] at h2
                simp [lexLeb, hxz, hzx]
                exact ih h1 h2

theorem char_eq_of_toNat_eq {a b : Char} (h : a.toNat = b.toNat) : a = b :=
  Char.ext (UInt32.ext h)

theorem lexLeb_antisymm {a b : List Char} (h1 : lexLeb a b = true)
    (h2 : lexLeb b a = true) : a = b := by
  induction a generalizing b with
  | nil =>
    cases b with
    | nil => rfl
    | cons y ys => simp [lexLeb] at h2
  | cons x xs ih =>
    cases b with
    | nil => simp [lexLeb] at h1
    | cons y ys =>
      by_cases hxy : x.toNat < y.toNat
      · exfalso
        simp [lexLeb, show ¬ y.toNat < x.toNat by omega, hxy] at h2
      · by_cases hyx : y.toNat < x.toNat
        · simp [lexLeb, hxy, hyx] at h1
        · have hx : x = y := char_eq_of_toNat_eq (by omega)
          subst hx
          simp [lexLeb, hxy, hyx] at h1 h2
          rw [ih h1 h2]

instance : IsTotal String strLeR :=
  ⟨fun a b => lexLeb_total a.data b.data⟩

instance : IsTrans String strLeR :=
  ⟨fun _ _ _ h1 h2 => lexLeb_trans h1 h2⟩

instance : IsAntisymm String strLeR :=
  ⟨fun a b h1 h2 => by
    cases a; cases b
    exact congrArg String.mk (lexLeb_antisymm h1 h2)⟩

instance : IsRefl String strLeR :=
  ⟨fun a => by
    rcases lexLeb_total a.data a.data with h | h <;> exact h⟩

instance {α : Type} : IsTotal (String × α) keyLe :=
  ⟨fun a b => IsTotal.total (r := strLeR) a.1 b.1⟩

instance {α : Type} : IsTrans (String × α) keyLe :=
  ⟨fun _ _ _ h1 h2 => IsTrans.trans (r := strLeR) _ _ _ h1 h2⟩

theorem mapLookupL_mapInsertL_self {α : Type} (k : String) (v : α)
    (m : List (String × α)) : mapLookupL k (mapInsertL k v m) = some v := by
  induction m with
  | nil => simp [mapInsertL, mapLookupL]
  | cons p rest ih =>
    obtain ⟨k', v'⟩ := p
    by_cases h : k' = k
    · simp [mapInsertL, mapLookupL, h]
    · simp [mapInsertL, mapLookupL, h, ih]

theorem mapLookupL_mapInsertL_other {α : Type} {k k2 : String} (v : α)
    (m : List (String × α)) (h : k ≠ k2) :
    mapLookupL k2 (mapInsertL k v m) = mapLookupL k2 m := by
  induction m with
  | nil => simp [mapInsertL, mapLookupL, h]
  | cons p rest ih =>
    obtain ⟨k', v'⟩ := p
    by_cases h1 : k' = k
    · subst h1; simp [mapInsertL, mapLookupL, h]
    · by_cases h2 : k' = k2
      · subst h2; simp [mapInsertL, mapLookupL, h1, Ne.symm h]
      · simp [mapInsertL, mapLookupL, h1, h2, ih]

theorem setInsert_mem (s : List String) (x y : String) :
    y ∈ setInsert s x ↔ y ∈ s ∨ y = x := by
  unfold setInsert
  by_cases h : x ∈ s
  · simp only [if_pos h]
    constructor
    · exact Or.inl
    · rintro (h2 | rfl)
      · exact h2
      · exact h
  · simp [if_neg h]

theorem setInsert_nodup (s : List String) (x : String) (h : s.Nodup) :
    (setInsert s x).Nodup := by
  unfold setInsert
  by_cases hx : x ∈ s
  · simpa [hx]
  · simp only [if_neg hx]
    exact List.Nodup.append h (List.nodup_singleton x)
      (fun a ha hb => hx ((List.mem_singleton.mp hb) ▸ ha))

theorem sortStrings_sorted (l : List String) :
    List.Sorted strLeR (sortStrings l) :=
  List.sorted_insertionSort strLeR l

theorem sortStrings_perm (l : List String) : (sortStrings l).Perm l :=
  List.perm_insertionSort strLeR l

theorem sortStrings_eq_of_perm {l1 l2 : List String} (h : l1.Perm l2) :
    sortStrings l1 = sortStrings l2 :=
  List.eq_of_perm_of_sorted
    (((sortStrings_perm l1).trans h).trans (sortStrings_perm l2).symm)
    (sortStrings_sorted l1) (sortStrings_sorted l2)

/-! ## Generic lemmas about the embedded map/set operations -/

theorem mem_foldl_setInsert {α : Type} (f : α → String) (l : List α)
    (s : List String) (x : String) :
    x ∈ l.foldl (fun st a => setInsert st (f a)) s ↔ x ∈ s ∨ ∃ a ∈ l, x = f a := by
  induction l generalizing s with
  | nil => simp
  | cons a rest ih =>
    simp only [List.foldl_cons, ih, setInsert_mem, List.mem_cons]
    constructor
    · rintro ((h | h) | ⟨b, hb, rfl⟩)
      · exact Or.inl h
      · exact Or.inr ⟨a, Or.inl rfl, h⟩
      · exact Or.inr ⟨b, Or.inr hb, rfl⟩
    · rintro (h | ⟨b, (rfl | hb), rfl⟩)
      · exact Or.inl (Or.inl h)
      · exact Or.inl (Or.inr rfl)
      · exact Or.inr ⟨b, hb, rfl⟩

theorem nodup_foldl_setInsert {α : Type} (f : α → String) (l : List α)
    (s : List String) (h : s.Nodup) :
    (l.foldl (fun st a => setInsert st (f a)) s).Nodup := by
  induction l generalizing s with
  | nil => simpa
  | cons a rest ih => exact ih _ (setInsert_nodup _ _ h)

theorem foldl_setInsert_fresh {α : Type} (f : α → String) (l : List α)
    (s : List String) (hn : (l.map f).Nodup) (hd : ∀ a ∈ l, f a ∉ s) :
    l.foldl (fun st a => setInsert st (f a)) s = s ++ l.map f := by
  induction l generalizing s with
  | nil => simp
  | cons a rest ih =>
    simp only [List.map_cons, List.nodup_cons] at hn
    have ha : f a ∉ s := hd a (List.mem_cons_self a rest)
    have hstep : setInsert s (f a) = s ++ [f a] := by simp [setInsert, ha]
    have hd2 : ∀ b ∈ rest, f b ∉ s ++ [f a] := by
      intro b hb hmem
      rcases List.mem_append.mp hmem with h1 | h1
      · exact hd b (List.mem_cons_of_mem a hb) h1
      · exact hn.1 ((List.mem_singleton.mp h1) ▸ List.mem_map_of_mem f hb)
    simp only [List.foldl_cons, hstep, ih (s ++ [f a]) hn.2 hd2]
    simp

theorem mapLookupL_append {α : Type} (k : String) (l1 l2 : List (String × α)) :
    mapLookupL k (l1 ++ l2) =
      match mapLookupL k l1 with
      | some v => some v
      | none => mapLookupL k l2 := by
  induction l1 with
  | nil => simp [mapLookupL]
  | cons p rest ih =>
    obtain ⟨k', v'⟩ := p
    by_cases h : k' = k <;> simp [mapLookupL, h, ih]

theorem mapInsertL_absent {α : Type} (k : String) (v : α) (m : List (String × α))
    (h : mapLookupL k m = none) : mapInsertL k v m = m ++ [(k, v)] := by
  induction m with
  | nil => simp [mapInsertL]
  | cons p rest ih =>
    obtain ⟨k', v'⟩ := p
    by_cases h1 : k' = k
    · simp [mapLookupL, h1] at h
    · simp only [mapLookupL, if_neg h1] at h
      simp [mapInsertL, h1, ih h]

theorem mapInsertL_keys {α : Type} (k : String) (v : α) (m : List (String × α)) :
    (mapInsertL k v m).map Prod.fst = if (mapLookupL k m).isSome
      then m.map Prod.fst else m.map Prod.fst ++ [k] := by
  induction m with
  | nil => simp [mapInsertL, mapLookupL]
  | cons p rest ih =>
    obtain ⟨k', v'⟩ := p
    by_cases h1 : k' = k
    · simp [mapInsertL, mapLookupL, h1]
    · simp only [mapInsertL, if_neg h1, mapLookupL, List.map_cons, ih]
      by_cases h2 : (mapLookupL k rest).isSome <;> simp [h1, h2]

theorem mapLookupL_none_of_key_not_mem {α : Type} (k : String)
    (m : List (String × α)) (h : k ∉ m.map Prod.fst) : mapLookupL k m = none := by
  induction m with
  | nil => rfl
  | cons p rest ih =>
    obtain ⟨k', v'⟩ := p
    simp only [List.map_cons, List.mem_cons] at h
    push_neg at h
    simp [mapLookupL, Ne.symm h.1, ih h.2]

theorem mapLookupL_isSome_of_key_mem {α : Type} (k : String)
    (m : List (String × α)) (h : k ∈ m.map Prod.fst) : (mapLookupL k m).isSome := by
  induction m with
  | nil => simp at h
  | cons p rest ih =>
    obtain ⟨k', v'⟩ := p
    by_cases h2 : k' = k
    · simp [mapLookupL, h2]
    · simp only [List.map_cons, List.mem_cons] at h
      rcases h with h1 | h1
      · exact absurd h1.symm h2
      · simp [mapLookupL, h2, ih h1]

theorem mapInsertL_keys_nodup {α : Type} (k : String) (v : α)
    (m : List (String × α)) (h : (m.map Prod.fst).Nodup) :
    ((mapInsertL k v m).map Prod.fst).Nodup := by
  rw [mapInsertL_keys]
  by_cases h2 : (mapLookupL k m).isSome
  · simpa [h2]
  · simp only [h2, if_false, Bool.false_eq_true]
    refine List.Nodup.append h (List.nodup_singleton k) ?_
    intro a ha hb
    rw [List.mem_singleton] at hb
    rw [← hb] at h2
    exact h2 (mapLookupL_isSome_of_key_mem a m ha)

theorem mapLookupL_isSome_of_mem_key {α : Type} (m : List (String × α))
    (kv : String × α) (h : kv ∈ m) : (mapLookupL kv.1 m).isSome := by
  induction m with
  | nil => simp at h
  | cons p rest ih =>
    rcases List.mem_cons.mp h with h1 | h1
    · subst h1; simp [mapLookupL]
    · obtain ⟨k', v'⟩ := p
      by_cases h2 : k' = kv.1 <;> simp [mapLookupL, h2, ih h1]

theorem mapLookupL_mapAdjust_other {α : Type} (k k2 : String) (f : α → α)
    (m : List (String × α)) (h : k ≠ k2) :
    mapLookupL k2 (mapAdjust k f m) = mapLookupL k2 m := by
  induction m with
  | nil => simp [mapAdjust]
  | cons p rest ih =>
    obtain ⟨k', v'⟩ := p
    by_cases h1 : k' = k
    · subst h1
      simp [mapAdjust, mapLookupL, h, ih]
    · by_cases h2 : k' = k2
      · subst h2; simp [mapAdjust, mapLookupL, h1, Ne.symm h]
      · simp [mapAdjust, mapLookupL, h1, h2, ih]

theorem mapAdjust_append_last {α : Type} (k : String) (f : α → α) (x : α)
    (m : List (String × α)) (h : mapLookupL k m = none) :
    mapAdjust k f (m ++ [(k, x)]) = m ++ [(k, f x)] := by
  induction m with
  | nil => simp [mapAdjust]
  | cons p rest ih =>
    obtain ⟨k', v'⟩ := p
    by_cases h1 : k' = k
    · simp [mapLookupL, h1] at h
    · simp only [mapLookupL, if_neg h1] at h
      simp [mapAdjust, h1, ih h]

/-! ## Substring lemmas for the placeholder check -/

theorem hasSubAux_append_self (pat rest : List Char) :
    hasSubAux pat (pat ++ rest) = true := by
  cases pat with
  | nil =>
    induction rest with
    | nil => rfl
    | cons c t ih => simp [hasSubAux, List.isPrefixOf]
  | cons c t =>
    simp only [List.cons_append, hasSubAux, Bool.or_eq_true]
    left
    exact List.isPrefixOf_iff_prefix.mpr
      (List.cons_append c t rest ▸ List.prefix_append (c :: t) rest)

theorem hasSubAux_pair_sep {p1 p2 c : Char} {l r : List Char}
    (hc1 : c ≠ p1) (hc2 : c ≠ p2)
    (hl : hasSubAux [p1, p2] l = false) (hr : hasSubAux [p1, p2] r = false) :
    hasSubAux [p1, p2] (l ++ c :: r) = false := by
  induction l with
  | nil =>
    simp only [List.nil_append, hasSubAux, Bool.or_eq_false_iff]
    refine ⟨?_, hr⟩
    simp [List.isPrefixOf, Ne.symm hc1]
  | cons x xs ih =>
    simp only [hasSubAux, Bool.or_eq_false_iff] at hl
    simp only [List.cons_append, hasSubAux, Bool.or_eq_false_iff]
    refine ⟨?_, ih hl.2⟩
    cases xs with
    | nil => simp [List.isPrefixOf, Ne.symm hc2]
    | cons y ys =>
      have h1 := hl.1
      simp only [List.isPrefixOf, Bool.and_eq_false_iff] at h1 ⊢
      rcases h1 with h1 | h1
      · exact Or.inl h1
      · rcases h1 with h1 | h1
        · exact Or.inr (Or.inl h1)
        · simp [List.isPrefixOf] at h1

/-! ## C1 -/

/-- C1 counterexample: in the spec's own two-POM scenario (POM A
declares `foo.version = 2.3`, POM B declares a dependency with version
`${foo.version}`), the aggregator would indeed find the property, but
the aggregated analysis renders B's dependency as `g:a`, not
`g:a@2.3`: `analyzeRepository` never calls `aggregatePomData` and
`parsePomDeps` drops every placeholder version. -/
theorem claim_C1_counterexample :
    mapLookupL "foo.version" (aggregatePomData "r" mavenForest).1 = some "2.3" ∧
    mapLookupL "b/pom.xml"
        ((mapLookupL "Maven"
          (analyzeRepository env0 "u" "r" mavenManagers mavenFS).deps).getD [])
      = some ["g:a"] ∧
    (["g:a"] : List String) ≠ ["g:a@2.3"] := by
  refine ⟨by decide, by decide, by decide⟩

/-- C1 (amended): the Maven dependency parser does not substitute
placeholders from the Property Table; any dependency whose raw version
is a `${...}` placeholder is rendered with the version omitted, as
`group:artifact`, and in the spec's A/B scenario B's dependency is
rendered `g:a`. -/
theorem claim_C1_amended :
    (∀ g a inner : String,
      pomDepKey g a ("$\x7b" ++ inner ++ "\x7d") = g ++ ":" ++ a) ∧
    mapLookupL "b/pom.xml"
        ((mapLookupL "Maven"
          (analyzeRepository env0 "u" "r" mavenManagers mavenFS).deps).getD [])
      = some ["g:a"] := by
  constructor
  · intro g a inner
    have hc : strContains ("$\x7b" ++ inner ++ "\x7d") "$\x7b" = true := by
      unfold strContains
      rw [String.data_append, String.data_append, List.append_assoc]
      exact hasSubAux_append_self _ _
    simp [pomDepKey, hc]
  · decide

/-! ## C3 -/

/-- C3: a dependency whose version string contains a `${...}`
placeholder is rendered as bare `group:artifact` with the version
omitted, and (when the placeholder occurs only in the version, i.e.
the extracted group and artifact contain no `${`) the rendered string
never contains `${`. The code drops every placeholder version, matched
in the Property Table or not, so the theorem needs no hypothesis about
property keys. -/
theorem claim_C3 (g a v : String) (h : strContains v "$\x7b" = true)
    (hg : strContains g "$\x7b" = false) (ha : strContains a "$\x7b" = false) :
    pomDepKey g a v = g ++ ":" ++ a ∧
    strContains (pomDepKey g a v) "$\x7b" = false := by
  have hk : pomDepKey g a v = g ++ ":" ++ a := by simp [pomDepKey, h]
  refine ⟨hk, ?_⟩
  rw [hk]
  show hasSubAux "$\x7b".data (g ++ ":" ++ a).data = false
  rw [String.data_append, String.data_append]
  have hj : g.data ++ ":".data ++ a.data = g.data ++ ':' :: a.data := by simp
  rw [hj]
  exact hasSubAux_pair_sep (by decide) (by decide) hg ha

/-- C3 witness: the placeholder dependency of POM B. -/
theorem claim_C3_witness :
    strContains "$\x7bfoo.version\x7d" "$\x7b" = true ∧
    strContains "g" "$\x7b" = false ∧
    strContains "a" "$\x7b" = false ∧
    pomDepKey "g" "a" "$\x7bfoo.version\x7d" = "g:a" ∧
    strContains (pomDepKey "g" "a" "$\x7bfoo.version\x7d") "$\x7b" = false := by
  refine ⟨by decide, by decide, by decide, ?_, ?_⟩
  · exact (claim_C3 "g" "a" "$\x7bfoo.version\x7d" (by decide) (by decide) (by decide)).1
  · exact (claim_C3 "g" "a" "$\x7bfoo.version\x7d" (by decide) (by decide) (by decide)).2

/-! ## C4 -/

/-- C4 counterexample: a `<dependency>` block with a `groupId` and a
`version` but no `artifactId` is NOT skipped by `parsePomDeps`: it
contributes the record `g:@1` (the guard at parsers.go line 356 skips
only when group and artifact are BOTH empty). -/
theorem claim_C4_counterexample :
    parsePomDeps (some pomMissingArtifact) = ["g:@1"] ∧
    parsePomDeps (some pomMissingArtifact) ≠ [] := by
  refine ⟨by decide, by decide⟩

/-- C4 (amended): the dependency-management extraction skips every
block missing either identifier, but the per-file parser
`parsePomDeps` skips a block only when group and artifact are both
missing; a block with exactly one identifier contributes a record
whose other side of the `:` is empty. -/
theorem claim_C4_amended :
    (∀ (m : List (String × String)) (block : String),
      ((depTriple block).1 = "" ∨ (depTriple block).2.1 = "") → dmAdd m block = m) ∧
    (∀ (ds : List String) (block : String),
      (depTriple block).1 = "" → (depTriple block).2.1 = "" → depAdd ds block = ds) ∧
    (∀ (ds : List String) (block : String),
      ¬ ((depTriple block).1 = "" ∧ (depTriple block).2.1 = "") →
      depAdd ds block =
        setInsert ds (pomDepKey (depTriple block).1 (depTriple block).2.1
          (depTriple block).2.2)) := by
  refine ⟨?_, ?_, ?_⟩
  · intro m block h
    rcases h with h | h <;> simp [dmAdd, h]
  · intro ds block h1 h2
    simp [depAdd, h1, h2]
  · intro ds block h
    have hb : (decide ((depTriple block).1 = "") &&
        decide ((depTriple block).2.1 = "")) = false := by
      by_cases h1 : (depTriple block).1 = "" <;>
        by_cases h2 : (depTriple block).2.1 = "" <;> simp_all
    simp [depAdd, hb]

/-- C4 witness: a block with no identifiers is skipped by both; the
block missing only its artifact is skipped by the dependency-management
extraction yet recorded by `parsePomDeps`'s per-block step. -/
theorem claim_C4_amended_witness :
    dmAdd [] pomMissingArtifact = [] ∧
    depAdd [] "<x>" = [] ∧
    depAdd [] pomMissingArtifact = setInsert [] (pomDepKey "g" "" "1") := by
  refine ⟨?_, ?_, ?_⟩
  · exact claim_C4_amended.1 [] pomMissingArtifact (Or.inr (by decide))
  · exact claim_C4_amended.2.1 [] "<x>" (by decide) (by decide)
  · have h := claim_C4_amended.2.2 [] pomMissingArtifact
      (by intro hc; exact absurd hc.1 (by decide))
    rw [h]
    decide

/-! ## C5 -/

/-- C5 counterexample: `aggregatePomData`'s walk has no `.git` skip;
a `pom.xml` lying under a `.git` directory does contribute its
property `k = 1` to the Property Table, contradicting the claim that
no file under version-control metadata contributes entries. -/
theorem claim_C5_counterexample :
    mapLookupL "k" (aggregatePomData "r" gitForest).1 = some "1" ∧
    (some "1" : Option String) ≠ none := by
  refine ⟨by decide, by decide⟩

/-- C5 (amended): the walk of `detectPackageManagers` skips
directories named `.git` (discovery.go line 40), but the walk of the
Maven aggregator `aggregatePomData` visits them like any other
directory, so a `pom.xml` under `.git` contributes entries to the
aggregated tables. -/
theorem claim_C5_amended :
    (∀ (pre : String) (cs : FForest) (ts : FForest),
      detectWalkForest pre (FForest.cons (FTree.dir ".git" cs) ts)
        = detectWalkForest pre ts) ∧
    (∀ (pre : String) (cs : FForest) (ts : FForest),
      walkAllForest pre (FForest.cons (FTree.dir ".git" cs) ts)
        = walkAllForest (pre ++ "/" ++ ".git") cs ++ walkAllForest pre ts) ∧
    mapLookupL "k" (aggregatePomData "r" gitForest).1 = some "1" := by
  refine ⟨?_, ?_, by decide⟩
  · intro pre cs ts
    simp [detectWalkForest, detectWalkTree]
  · intro pre cs ts
    simp [walkAllForest, walkAllTree]

/-! ## C2: first-writer-wins aggregation -/

theorem foldl_preserves_keys_nodup {β : Type}
    (s : List (String × String) → β → List (String × String))
    (hs : ∀ m b, (m.map Prod.fst).Nodup → ((s m b).map Prod.fst).Nodup)
    (l : List β) (m : List (String × String)) (h : (m.map Prod.fst).Nodup) :
    ((l.foldl s m).map Prod.fst).Nodup := by
  induction l generalizing m with
  | nil => simpa
  | cons b rest ih => exact ih (s m b) (hs m b h)

theorem parsePomProperties_keys_nodup (c : Option String) :
    ((parsePomProperties c).map Prod.fst).Nodup := by
  unfold parsePomProperties
  cases c with
  | none => simp
  | some s =>
    cases h : extractFirstBlock "<properties>" "</properties>" s with
    | none => simp [h]
    | some inner =>
      simp only [h]
      exact foldl_preserves_keys_nodup _
        (fun m kv hnd => mapInsertL_keys_nodup _ _ m hnd) _ [] (by simp)

theorem parsePomDependencyManagement_keys_nodup (c : Option String) :
    ((parsePomDependencyManagement c).map Prod.fst).Nodup := by
  unfold parsePomDependencyManagement
  cases c with
  | none => simp
  | some s =>
    cases h : extractFirstBlock "<dependencyManagement>" "</dependencyManagement>" s with
    | none => simp [h]
    | some inner =>
      simp only [h]
      refine foldl_preserves_keys_nodup dmAdd ?_ _ [] (by simp)
      intro m b hnd
      unfold dmAdd
      split
      · exact mapInsertL_keys_nodup _ _ m hnd
      · exact hnd

theorem mapLookupL_mergeIfAbsent (k : String) (acc m : List (String × String))
    (hm : (m.map Prod.fst).Nodup) :
    mapLookupL k (mergeIfAbsent acc m) =
      match mapLookupL k acc with
      | some v => some v
      | none => mapLookupL k m := by
  induction m generalizing acc with
  | nil =>
    simp only [mergeIfAbsent, List.foldl_nil, mapLookupL]
    cases mapLookupL k acc <;> rfl
  | cons p rest ih =>
    obtain ⟨k1, v1⟩ := p
    simp only [List.map_cons, List.nodup_cons] at hm
    have step : mergeIfAbsent acc ((k1, v1) :: rest) =
        mergeIfAbsent (if (mapLookupL k1 acc).isSome then acc else acc ++ [(k1, v1)]) rest := by
      simp [mergeIfAbsent]
    rw [step, ih _ hm.2]
    by_cases hk : k1 = k
    · subst hk
      have hrest : mapLookupL k1 rest = none :=
        mapLookupL_none_of_key_not_mem k1 rest hm.1
      by_cases hacc : (mapLookupL k1 acc).isSome
      · rcases Option.isSome_iff_exists.mp hacc with ⟨v, hv⟩
        simp [hacc, hv, mapLookupL]
      · have hnone : mapLookupL k1 acc = none := by
          cases h2 : mapLookupL k1 acc
          · rfl
          · rw [h2] at hacc; simp at hacc
        simp [hacc, hnone, mapLookupL_append, mapLookupL]
    · have hhead : mapLookupL k ((k1, v1) :: rest) = mapLookupL k rest := by
        simp [mapLookupL, hk]
      rw [hhead]
      by_cases hacc : (mapLookupL k1 acc).isSome
      · simp [hacc]
      · have : mapLookupL k (acc ++ [(k1, v1)]) = mapLookupL k acc := by
          rw [mapLookupL_append]
          cases h2 : mapLookupL k acc
          · simp [mapLookupL, hk]
          · rfl
        simp [hacc, this]

theorem agg_foldl_fst (files : List (String × String))
    (acc : List (String × String) × List (String × String)) (k : String) :
    mapLookupL k ((files.foldl aggStep acc).1) =
      match mapLookupL k acc.1 with
      | some v => some v
      | none =>
        firstSomeL (fun pc => mapLookupL k (parsePomProperties (some pc.2)))
          (files.filter (fun pc => strHasSuffix pc.1 "pom.xml")) := by
  induction files generalizing acc with
  | nil =>
    simp only [List.foldl_nil, List.filter_nil, firstSomeL]
    cases mapLookupL k acc.1 <;> rfl
  | cons pc rest ih =>
    by_cases hp : strHasSuffix pc.1 "pom.xml"
    · have hstep : aggStep acc pc =
          (mergeIfAbsent acc.1 (parsePomProperties (some pc.2)),
           mergeIfAbsent acc.2 (parsePomDependencyManagement (some pc.2))) := by
        simp [aggStep, hp]
      have hf : (pc :: rest).filter (fun x => strHasSuffix x.1 "pom.xml")
          = pc :: rest.filter (fun x => strHasSuffix x.1 "pom.xml") := by
        simp [List.filter_cons, hp]
      rw [List.foldl_cons, hstep, ih, hf,
        mapLookupL_mergeIfAbsent k acc.1 _ (parsePomProperties_keys_nodup _)]
      simp only [firstSomeL]
      cases mapLookupL k acc.1 <;> cases mapLookupL k (parsePomProperties (some pc.2)) <;> rfl
    · have hstep : aggStep acc pc = acc := by simp [aggStep, hp]
      have hf : (pc :: rest).filter (fun x => strHasSuffix x.1 "pom.xml")
          = rest.filter (fun x => strHasSuffix x.1 "pom.xml") := by
        simp [List.filter_cons, hp]
      rw [List.foldl_cons, hstep, ih, hf]

theorem agg_foldl_snd (files : List (String × String))
    (acc : List (String × String) × List (String × String)) (k : String) :
    mapLookupL k ((files.foldl aggStep acc).2) =
      match mapLookupL k acc.2 with
      | some v => some v
      | none =>
        firstSomeL (fun pc => mapLookupL k (parsePomDependencyManagement (some pc.2)))
          (files.filter (fun pc => strHasSuffix pc.1 "pom.xml")) := by
  induction files generalizing acc with
  | nil =>
    simp only [List.foldl_nil, List.filter_nil, firstSomeL]
    cases mapLookupL k acc.2 <;> rfl
  | cons pc rest ih =>
    by_cases hp : strHasSuffix pc.1 "pom.xml"
    · have hstep : aggStep acc pc =
          (mergeIfAbsent acc.1 (parsePomProperties (some pc.2)),
           mergeIfAbsent acc.2 (parsePomDependencyManagement (some pc.2))) := by
        simp [aggStep, hp]
      have hf : (pc :: rest).filter (fun x => strHasSuffix x.1 "pom.xml")
          = pc :: rest.filter (fun x => strHasSuffix x.1 "pom.xml") := by
        simp [List.filter_cons, hp]
      rw [List.foldl_cons, hstep, ih, hf,
        mapLookupL_mergeIfAbsent k acc.2 _ (parsePomDependencyManagement_keys_nodup _)]
      simp only [firstSomeL]
      cases mapLookupL k acc.2 <;>
        cases mapLookupL k (parsePomDependencyManagement (some pc.2)) <;> rfl
    · have hstep : aggStep acc pc = acc := by simp [aggStep, hp]
      have hf : (pc :: rest).filter (fun x => strHasSuffix x.1 "pom.xml")
          = rest.filter (fun x => strHasSuffix x.1 "pom.xml") := by
        simp [List.filter_cons, hp]
      rw [List.foldl_cons, hstep, ih, hf]

/-- C2: first writer wins. For every repository tree and key, the
merged Property Table (resp. Dependency-Management Table) binds the
key to the value produced by the first `pom.xml` file, in walk order,
whose per-file map contains it; and merging never overwrites a key
already present in the accumulated table. -/
theorem claim_C2 (root : String) (f : FForest) (k : String) :
    (mapLookupL k (aggregatePomData root f).1 =
      firstSomeL (fun pc => mapLookupL k (parsePomProperties (some pc.2)))
        ((walkAllForest root f).filter (fun x => strHasSuffix x.1 "pom.xml"))) ∧
    (mapLookupL k (aggregatePomData root f).2 =
      firstSomeL (fun pc => mapLookupL k (parsePomDependencyManagement (some pc.2)))
        ((walkAllForest root f).filter (fun x => strHasSuffix x.1 "pom.xml"))) ∧
    (∀ acc m : List (String × String), (m.map Prod.fst).Nodup →
      (mapLookupL k acc).isSome →
      mapLookupL k (mergeIfAbsent acc m) = mapLookupL k acc) := by
  refine ⟨?_, ?_, ?_⟩
  · unfold aggregatePomData
    rw [agg_foldl_fst]
    rfl
  · unfold aggregatePomData
    rw [agg_foldl_snd]
    rfl
  · intro acc m hm hk
    rw [mapLookupL_mergeIfAbsent k acc m hm]
    rcases Option.isSome_iff_exists.mp hk with ⟨v, hv⟩
    rw [hv]

/-- C2 witness: two POMs defining `k`; the walk visits `a/pom.xml`
first and its value `1` wins over the later `2`. -/
theorem claim_C2_witness :
    mapLookupL "k"
      (aggregatePomData "r"
        (FForest.cons (FTree.dir "a"
            (FForest.cons (FTree.file "pom.xml" "<properties><k>1</k></properties>") FForest.nil))
          (FForest.cons (FTree.dir "b"
            (FForest.cons (FTree.file "pom.xml" "<properties><k>2</k></properties>") FForest.nil))
            FForest.nil))).1 = some "1" ∧
    mapLookupL "k" (mergeIfAbsent [("k", "1")] [("k", "2")]) = some "1" := by
  constructor
  · have h := (claim_C2 "r"
      (FForest.cons (FTree.dir "a"
          (FForest.cons (FTree.file "pom.xml" "<properties><k>1</k></properties>") FForest.nil))
        (FForest.cons (FTree.dir "b"
          (FForest.cons (FTree.file "pom.xml" "<properties><k>2</k></properties>") FForest.nil))
          FForest.nil)) "k").1
    rw [h]
    decide
  · exact (claim_C2 "r" FForest.nil "k").2.2 [("k", "1")] [("k", "2")]
      (by decide) (by decide)

/-! ## C8: the Node manifest parser -/

theorem packDepFold_nil (fmtV : JVal → String) (st : List String) :
    packDepFold fmtV st [] = st := rfl

theorem mem_packDepFold (fmtV : JVal → String) (st : List String)
    (m : List (String × JVal)) (x : String) :
    x ∈ packDepFold fmtV st m ↔
      x ∈ st ∨ ∃ kv ∈ m, x = kv.1 ++ "@" ++ jver fmtV kv.2 := by
  unfold packDepFold
  exact mem_foldl_setInsert (fun kv => kv.1 ++ "@" ++ jver fmtV kv.2) m st x

theorem parsePackageJSONDeps_obj (decode : String → Option JVal)
    (fmtV : JVal → String) (s : String) (data : List (String × JVal))
    (hd : decode s = some (JVal.obj data)) :
    parsePackageJSONDeps decode fmtV (some s) =
      setToSortedSlice
        (packDepFold fmtV (packDepFold fmtV [] (jdepsOf data)) (jdevOf data)) := by
  simp only [parsePackageJSONDeps, hd]
  unfold jdepsOf jdevOf
  cases h1 : mapLookupL "dependencies" data with
  | none =>
    cases h2 : mapLookupL "devDependencies" data with
    | none => simp [packDepFold]
    | some w => cases hw : jsonFields w <;> simp [hw, packDepFold]
  | some v =>
    cases hv : jsonFields v with
    | none =>
      cases h2 : mapLookupL "devDependencies" data with
      | none => simp [hv, packDepFold]
      | some w => cases hw : jsonFields w <;> simp [hv, hw, packDepFold]
    | some deps =>
      cases h2 : mapLookupL "devDependencies" data with
      | none => simp [hv, packDepFold]
      | some w => cases hw : jsonFields w <;> simp [hv, hw, packDepFold]

/-- C8: for every decoded Node manifest whose top level is an object,
the parsed set is exactly the union of the `dependencies` and
`devDependencies` entries rendered `name@version` (non-string versions
through `%v`); and for every input the decoder rejects (malformed
JSON, or a non-object top level), the parser returns the empty list
instead of raising. -/
theorem claim_C8 (decode : String → Option JVal) (fmtV : JVal → String)
    (s : String) :
    (decode s = none → parsePackageJSONDeps decode fmtV (some s) = []) ∧
    (∀ data : List (String × JVal), decode s = some (JVal.obj data) →
      ∀ x : String,
        x ∈ parsePackageJSONDeps decode fmtV (some s) ↔
          (∃ kv ∈ jdepsOf data, x = kv.1 ++ "@" ++ jver fmtV kv.2) ∨
          (∃ kv ∈ jdevOf data, x = kv.1 ++ "@" ++ jver fmtV kv.2)) := by
  constructor
  · intro h
    simp [parsePackageJSONDeps, h]
  · intro data hd x
    rw [parsePackageJSONDeps_obj decode fmtV s data hd]
    unfold setToSortedSlice sortStrings
    rw [List.mem_insertionSort, mem_packDepFold, mem_packDepFold]
    simp only [List.not_mem_nil, false_or]

/-- C8 witness: the decoder rejects `bad` (empty result, no error) and
accepts `ok` as the two-map manifest, where `react@18` is in the
rendered union. -/
theorem claim_C8_witness :
    parsePackageJSONDeps cDecode (fun _ => "") (some "bad") = [] ∧
    ("react@18" ∈ parsePackageJSONDeps cDecode (fun _ => "") (some "ok") ↔
      (∃ kv ∈ jdepsOf cNodeData,
        ("react@18" : String) = kv.1 ++ "@" ++ jver (fun _ => "") kv.2) ∨
      (∃ kv ∈ jdevOf cNodeData,
        ("react@18" : String) = kv.1 ++ "@" ++ jver (fun _ => "") kv.2)) :=
  ⟨(claim_C8 cDecode (fun _ => "") "bad").1 rfl,
   (claim_C8 cDecode (fun _ => "") "ok").2 cNodeData rfl "react@18"⟩

/-! ## C9: the Go module parser on require blocks -/

theorem splitNl_no_nl (a : List Char) (ha : '\n' ∉ a) : splitNl a = [a] := by
  induction a with
  | nil => rfl
  | cons c rest ih =>
    have hc : c ≠ '\n' := fun h => ha (h ▸ List.mem_cons_self c rest)
    simp [splitNl, if_neg hc, ih (fun h => ha (List.mem_cons_of_mem c h))]

theorem splitNl_append (a b : List Char) (ha : '\n' ∉ a) :
    splitNl (a ++ '\n' :: b) = a :: splitNl b := by
  induction a with
  | nil => simp [splitNl]
  | cons c rest ih =>
    have hc : c ≠ '\n' := fun h => ha (h ▸ List.mem_cons_self c rest)
    have ih2 := ih (fun h => ha (List.mem_cons_of_mem c h))
    simp [splitNl, if_neg hc, ih2]

theorem splitNl_joinNl (ls : List String) (h : ∀ l ∈ ls, '\n' ∉ l.data)
    (hne : ls ≠ []) : splitNl (joinNl ls).data = ls.map String.data := by
  induction ls with
  | nil => exact absurd rfl hne
  | cons l rest ih =>
    cases rest with
    | nil =>
      simp only [joinNl, List.map_cons, List.map_nil]
      exact splitNl_no_nl l.data (h l (List.mem_cons_self l []))
    | cons l2 rest2 =>
      have hjoin : joinNl (l :: l2 :: rest2) = l ++ "\n" ++ joinNl (l2 :: rest2) := rfl
      rw [hjoin]
      have hdata : (l ++ "\n" ++ joinNl (l2 :: rest2)).data
          = l.data ++ '\n' :: (joinNl (l2 :: rest2)).data := by
        rw [String.data_append, String.data_append]
        simp
      rw [hdata, splitNl_append l.data _ (h l (List.mem_cons_self l _)),
        ih (fun x hx => h x (List.mem_cons_of_mem l hx)) (by simp)]
      rfl

theorem splitLines_mk (ls : List String) (h : ∀ l ∈ ls, '\n' ∉ l.data)
    (hne : ls ≠ []) : splitLines (joinNl ls) = ls := by
  unfold splitLines
  rw [splitNl_joinNl ls h hne, List.map_map]
  have : (fun l : List Char => (⟨l⟩ : String)) ∘ String.data = id := by
    funext s
    rfl
  rw [this, List.map_id]

theorem renderGoLine_no_nl (gl : GoLine) (h : GoLineOK gl) :
    '\n' ∉ (renderGoLine gl).data := by
  cases gl with
  | entry n v =>
    intro hmem
    have hdata : (n ++ " " ++ v).data = n.data ++ ' ' :: v.data := by
      rw [String.data_append, String.data_append, List.append_assoc]; rfl
    rw [renderGoLine, hdata] at hmem
    rcases List.mem_append.mp hmem with h1 | h1
    · have := h.1.2 '\n' h1
      simp [goWs] at this
    · rcases List.mem_cons.mp h1 with h2 | h2
      · exact absurd h2 (by decide)
      · have := h.2.1.2 '\n' h2
        simp [goWs] at this
  | comment c =>
    intro hmem
    have hdata : ("//" ++ c).data = '/' :: '/' :: c.data := by
      rw [String.data_append]; rfl
    rw [renderGoLine, hdata] at hmem
    rcases List.mem_cons.mp hmem with h2 | h2
    · exact absurd h2 (by decide)
    · rcases List.mem_cons.mp h2 with h3 | h3
      · exact absurd h3 (by decide)
      · exact h h3
  | blank => simp [renderGoLine]

theorem trimSpaceL_eq_self (l : List Char)
    (h1 : ∀ c, l.head? = some c → goWs c = false)
    (h2 : ∀ c, l.getLast? = some c → goWs c = false) : trimSpaceL l = l := by
  unfold trimSpaceL
  cases l with
  | nil => rfl
  | cons c r =>
    rw [List.dropWhile_cons, h1 c rfl]
    simp only [Bool.false_eq_true, if_false]
    cases hrev : (c :: r).reverse with
    | nil => exact absurd hrev (by simp)
    | cons d t =>
      have hd : (c :: r).getLast? = some d := by
        rw [← List.head?_reverse, hrev]
        rfl
      rw [List.dropWhile_cons, h2 d hd]
      simp only [Bool.false_eq_true, if_false]
      rw [← hrev, List.reverse_reverse]

theorem trimSpaceL_two {a b : Char} (l : List Char) (ha : goWs a = false)
    (hb : goWs b = false) : ∃ t, trimSpaceL (a :: b :: l) = a :: b :: t := by
  unfold trimSpaceL
  rw [List.dropWhile_cons, ha]
  simp only [Bool.false_eq_true, if_false]
  rw [show (a :: b :: l).reverse = l.reverse ++ [b, a] by simp, List.dropWhile_append]
  by_cases he : (List.dropWhile goWs l.reverse).isEmpty
  · simp only [he, if_true]
    rw [show List.dropWhile goWs [b, a] = [b, a] by
      rw [List.dropWhile_cons, hb]; simp]
    exact ⟨[], by simp⟩
  · simp only [he, Bool.false_eq_true, if_false]
    exact ⟨(List.dropWhile goWs l.reverse).reverse, by simp [List.reverse_append]⟩

theorem entry_data (n v : String) :
    (n ++ " " ++ v).data = n.data ++ ' ' :: v.data := by
  rw [String.data_append, String.data_append, List.append_assoc]; rfl

theorem trimSpace_entry (n v : String) (hn : GoTok n) (hv : GoTok v) :
    trimSpace (n ++ " " ++ v) = n ++ " " ++ v := by
  apply String.ext
  show trimSpaceL (n ++ " " ++ v).data = (n ++ " " ++ v).data
  rw [entry_data]
  apply trimSpaceL_eq_self
  · intro c hc
    cases hnd : n.data with
    | nil => exact absurd hnd hn.1
    | cons a nr =>
      rw [hnd] at hc
      simp only [List.cons_append, List.head?_cons, Option.some.injEq] at hc
      exact hc ▸ hn.2 a (hnd ▸ List.mem_cons_self a nr)
  · intro c hc
    cases hvd : v.data.reverse with
    | nil =>
      exact absurd (by simpa using hvd) hv.1
    | cons b vr =>
      have : (n.data ++ ' ' :: v.data).getLast? = some b := by
        rw [← List.head?_reverse, List.reverse_append]
        have : (' ' :: v.data).reverse = v.data.reverse ++ [' '] := by simp
        rw [this, hvd]
        rfl
      rw [this] at hc
      have hb : b ∈ v.data := List.mem_reverse.mp (hvd ▸ List.mem_cons_self b vr)
      exact (Option.some.injEq _ _ ▸ hc) ▸ hv.2 b hb

theorem splitOnceL_isSome_eq_hasSub (pat l : List Char) :
    (splitOnceL pat l).isSome = hasSubAux pat l := by
  induction l with
  | nil =>
    by_cases h : pat.isPrefixOf ([] : List Char) <;> simp [splitOnceL, hasSubAux, h]
  | cons c rest ih =>
    by_cases h : pat.isPrefixOf (c :: rest)
    · simp [splitOnceL, hasSubAux, h]
    · simp only [splitOnceL, hasSubAux, if_neg h, Bool.or_eq_true]
      cases hs : splitOnceL pat rest with
      | none =>
        rw [hs] at ih
        simp only [Option.isSome_none] at ih
        simp [← ih, h]
      | some p =>
        rw [hs] at ih
        simp only [Option.isSome_some] at ih
        simp [← ih, h]

theorem splitOnceL_none_of_no_sub (pat l : List Char)
    (h : hasSubAux pat l = false) : splitOnceL pat l = none := by
  have := splitOnceL_isSome_eq_hasSub pat l
  rw [h] at this
  cases hs : splitOnceL pat l
  · rfl
  · rw [hs] at this
    simp at this

theorem fieldsLAux_token (w : List Char) (cur rest : List Char)
    (hw : ∀ c ∈ w, goWs c = false) :
    fieldsLAux cur (w ++ rest) = fieldsLAux (w.reverse ++ cur) rest := by
  induction w generalizing cur with
  | nil => simp
  | cons c wr ih =>
    have hc := hw c (List.mem_cons_self c wr)
    simp only [List.cons_append, fieldsLAux, hc, Bool.false_eq_true, if_false,
      List.append_eq]
    rw [ih (c :: cur) (fun d hd => hw d (List.mem_cons_of_mem c hd))]
    congr 1
    simp

theorem string_mk_data (s : String) : (⟨s.data⟩ : String) = s := rfl

theorem fields_entry (n v : String) (hn : GoTok n) (hv : GoTok v) :
    fields (n ++ " " ++ v) = [n, v] := by
  unfold fields fieldsL
  rw [entry_data, fieldsLAux_token n.data [] (' ' :: v.data) hn.2]
  have hcur : n.data.reverse ++ ([] : List Char) ≠ [] := by
    simpa using hn.1
  simp only [fieldsLAux, show goWs ' ' = true by decide, if_true, if_neg hcur]
  have hv2 : fieldsLAux [] (v.data ++ []) = fieldsLAux (v.data.reverse ++ []) [] :=
    fieldsLAux_token v.data [] [] hv.2
  rw [List.append_nil] at hv2
  rw [hv2]
  have hvcur : v.data.reverse ++ ([] : List Char) ≠ [] := by
    simpa using hv.1
  simp only [fieldsLAux, if_neg hvcur]
  simp [string_mk_data]

theorem goModLine_blank (st : GoModSt) : goModLine st "" = st := rfl

theorem goModLine_comment (st : GoModSt) (c : String) :
    goModLine st ("//" ++ c) = st := by
  have hdata : ("//" ++ c).data = '/' :: '/' :: c.data := by
    rw [String.data_append]; rfl
  obtain ⟨t, ht⟩ := trimSpaceL_two c.data (show goWs '/' = false by decide)
    (show goWs '/' = false by decide)
  have htrim : trimSpace ("//" ++ c) = ⟨'/' :: '/' :: t⟩ := by
    apply String.ext
    show trimSpaceL ("//" ++ c).data = '/' :: '/' :: t
    rw [hdata]
    exact ht
  have hne : (⟨'/' :: '/' :: t⟩ : String) ≠ "" := by
    intro hc
    have := congrArg String.data hc
    simp at this
  have hsplit : splitOnceL "//".data ('/' :: '/' :: t) = some ([], t) := by
    have hpre : ("//".data).isPrefixOf ('/' :: '/' :: t) = true := by
      simp [List.isPrefixOf]
    simp [splitOnceL, hpre]
  unfold goModLine
  rw [htrim]
  rw [if_neg hne]
  rw [show (⟨'/' :: '/' :: t⟩ : String).data = '/' :: '/' :: t from rfl]
  rw [hsplit]
  rfl

theorem goModLine_entry (d : List String) (n v : String)
    (hok : GoLineOK (GoLine.entry n v)) :
    goModLine ⟨true, d⟩ (n ++ " " ++ v) =
      ⟨true, setInsert d (n ++ "@" ++ v)⟩ := by
  obtain ⟨hn, hv, hnosub, hnoreq, hnopar⟩ := hok
  have htrim := trimSpace_entry n v hn hv
  have hne : n ++ " " ++ v ≠ "" := by
    intro hc
    have h2 := congrArg String.data hc
    rw [entry_data] at h2
    cases hnd : n.data with
    | nil => exact hn.1 hnd
    | cons a nr => rw [hnd] at h2; simp at h2
  have hsplit : splitOnceL "//".data (n ++ " " ++ v).data = none :=
    splitOnceL_none_of_no_sub _ _ hnosub
  have hreq2 : ¬ (n ++ " " ++ v = "require(") := by
    intro hcontra
    have hsp : ' ' ∈ (n ++ " " ++ v).data := by
      rw [entry_data]; simp
    rw [hcontra] at hsp
    exact absurd hsp (by decide)
  have hpar : strHasPrefix (n ++ " " ++ v) ")" = false := by
    unfold strHasPrefix
    rw [entry_data]
    cases hnd : n.data with
    | nil => exact absurd hnd hn.1
    | cons a nr =>
      have ha : a ≠ ')' := by
        intro hc
        rw [hnd, hc] at hnopar
        exact hnopar rfl
      simp [List.isPrefixOf, Ne.symm ha]
  have hfields := fields_entry n v hn hv
  unfold goModLine
  rw [htrim]
  rw [if_neg hne]
  rw [hsplit]
  rw [if_neg hne]
  dsimp only
  rw [hnoreq]
  have hc1 : ¬ ((false || decide (n ++ " " ++ v = "require(")) = true) := by
    simp [hreq2]
  rw [if_neg hc1, if_pos rfl, hpar]
  have hc2 : ¬ (false = true) := by simp
  rw [if_neg hc2, hfields]

theorem goMod_fold_body (ls : List GoLine) (d : List String)
    (h : ∀ gl ∈ ls, GoLineOK gl) :
    (ls.map renderGoLine).foldl goModLine ⟨true, d⟩ =
      ⟨true, (goEntries ls).foldl (fun s nv => setInsert s (nv.1 ++ "@" ++ nv.2)) d⟩ := by
  induction ls generalizing d with
  | nil => rfl
  | cons gl rest ih =>
    have hgl := h gl (List.mem_cons_self gl rest)
    have hrest := fun x hx => h x (List.mem_cons_of_mem gl hx)
    cases gl with
    | entry n v =>
      simp only [List.map_cons, List.foldl_cons, goEntries, renderGoLine]
      rw [goModLine_entry d n v hgl, ih _ hrest]
    | comment c =>
      simp only [List.map_cons, List.foldl_cons, goEntries, renderGoLine]
      rw [goModLine_comment _ c, ih _ hrest]
    | blank =>
      simp only [List.map_cons, List.foldl_cons, goEntries, renderGoLine]
      rw [goModLine_blank, ih _ hrest]

theorem parseGoModDeps_mkGoMod (ls : List GoLine) (h : ∀ gl ∈ ls, GoLineOK gl) :
    parseGoModDeps (some (mkGoMod ls)) =
      setToSortedSlice
        ((goEntries ls).foldl (fun s nv => setInsert s (nv.1 ++ "@" ++ nv.2)) []) := by
  simp only [parseGoModDeps, mkGoMod]
  rw [splitLines_mk]
  · rw [show List.foldl goModLine ⟨false, []⟩
          ("require (" :: List.map renderGoLine ls ++ [")"])
        = List.foldl goModLine ⟨true, []⟩ (List.map renderGoLine ls ++ [")"]) from rfl]
    rw [List.foldl_append, goMod_fold_body ls [] h]
    rfl
  · intro l hl
    rcases List.mem_cons.mp hl with rfl | hl2
    · decide
    · rcases List.mem_append.mp hl2 with h3 | h3
      · rcases List.mem_map.mp h3 with ⟨gl, hgl, rfl⟩
        exact renderGoLine_no_nl gl (h gl hgl)
      · rw [List.mem_singleton.mp h3]
        decide
  · simp

/-- C9: for every `require ( ... )` block whose entry lines carry
whitespace-free `name version` tokens (no `//`, no line opening a new
block or starting with `)`), interspersed with arbitrary comment and
blank lines, the parser returns exactly the entries rendered
`name@version`: membership matches the entry list, the output is
sorted, and when the rendered entries are distinct the output has
exactly N records. Comments and blanks contribute nothing. -/
theorem claim_C9 (ls : List GoLine) (h : ∀ gl ∈ ls, GoLineOK gl) :
    (∀ x, x ∈ parseGoModDeps (some (mkGoMod ls)) ↔
      ∃ nv ∈ goEntries ls, x = nv.1 ++ "@" ++ nv.2) ∧
    List.Sorted strLeR (parseGoModDeps (some (mkGoMod ls))) ∧
    (((goEntries ls).map (fun nv => nv.1 ++ "@" ++ nv.2)).Nodup →
      (parseGoModDeps (some (mkGoMod ls))).length = (goEntries ls).length) := by
  rw [parseGoModDeps_mkGoMod ls h]
  refine ⟨?_, ?_, ?_⟩
  · intro x
    unfold setToSortedSlice sortStrings
    rw [List.mem_insertionSort,
      mem_foldl_setInsert (fun nv => nv.1 ++ "@" ++ nv.2) (goEntries ls) [] x]
    simp
  · exact sortStrings_sorted _
  · intro hnd
    rw [foldl_setInsert_fresh _ _ [] hnd (by simp)]
    unfold setToSortedSlice
    have := (sortStrings_perm
      (([] : List String) ++ (goEntries ls).map (fun nv => nv.1 ++ "@" ++ nv.2))).length_eq
    rw [this]
    simp

/-- C9 witness: a block with two entries, one comment and one blank
line: the rendered `a@v1` is a member, the output is sorted, and its
length is the number of distinct entries (two). -/
theorem claim_C9_witness :
    (("a@v1" ∈ parseGoModDeps (some (mkGoMod cGoLines)) ↔
       ∃ nv ∈ goEntries cGoLines, ("a@v1" : String) = nv.1 ++ "@" ++ nv.2)) ∧
    List.Sorted strLeR (parseGoModDeps (some (mkGoMod cGoLines))) ∧
    (parseGoModDeps (some (mkGoMod cGoLines))).length = (goEntries cGoLines).length := by
  have hok : ∀ gl ∈ cGoLines, GoLineOK gl := by decide
  exact ⟨(claim_C9 cGoLines hok).1 "a@v1", (claim_C9 cGoLines hok).2.1,
    (claim_C9 cGoLines hok).2.2 (by decide)⟩

/-! ## C10: only the first tag region is scanned -/

theorem isPrefixOf_append_of_le (pat l t : List Char) (h : pat.length ≤ l.length) :
    pat.isPrefixOf (l ++ t) = pat.isPrefixOf l := by
  induction pat generalizing l with
  | nil => simp [List.isPrefixOf]
  | cons p pt ih =>
    cases l with
    | nil => simp at h
    | cons a l2 =>
      simp only [List.cons_append, List.isPrefixOf, List.append_eq]
      rw [ih l2 (by simpa using h)]

theorem splitOnceL_boundary (pat l r : List Char) (hpat : pat ≠ [])
    (h : ∀ i < l.length, ¬ occursAt pat (l ++ pat) i) :
    splitOnceL pat (l ++ pat ++ r) = some (l, r) := by
  induction l with
  | nil =>
    cases hp : pat with
    | nil => exact absurd hp hpat
    | cons p0 pt =>
      rw [← hp]
      have hpre : pat.isPrefixOf (pat ++ r) = true :=
        List.isPrefixOf_iff_prefix.mpr (List.prefix_append pat r)
      rw [List.nil_append]
      cases hq : pat ++ r with
      | nil =>
        rcases List.append_eq_nil.mp hq with ⟨h1, h2⟩
        exact absurd h1 hpat
      | cons q0 qt =>
        rw [← hq]
        have : splitOnceL pat (pat ++ r) = some ([], (pat ++ r).drop pat.length) := by
          rw [hq]
          simp only [splitOnceL]
          rw [← hq, hpre]
          simp
        rw [this, List.drop_left]
  | cons c l2 ih =>
    have h0 : pat.isPrefixOf (c :: (l2 ++ pat ++ r)) = false := by
      have hnot := h 0 (by simp)
      unfold occursAt at hnot
      simp only [List.drop_zero] at hnot
      have heq : (c :: l2) ++ pat = c :: (l2 ++ pat) := by simp
      rw [heq] at hnot
      have hlen : pat.length ≤ (c :: (l2 ++ pat)).length := by
        simp only [List.length_cons, List.length_append]
        omega
      have := isPrefixOf_append_of_le pat (c :: (l2 ++ pat)) r hlen
      rw [show (c :: (l2 ++ pat)) ++ r = c :: (l2 ++ pat ++ r) by simp] at this
      rw [this]
      cases hres : pat.isPrefixOf (c :: (l2 ++ pat))
      · rfl
      · exact absurd hres hnot
    have hih := ih (fun i hi => by
      have := h (i + 1) (by simp; omega)
      unfold occursAt at this ⊢
      intro hc
      apply this
      have heq : ((c :: l2) ++ pat).drop (i + 1) = (l2 ++ pat).drop i := by simp
      rw [heq]
      exact hc)
    have heq2 : (c :: l2) ++ pat ++ r = c :: (l2 ++ pat ++ r) := by simp
    rw [heq2]
    simp only [splitOnceL, h0, Bool.false_eq_true, if_false, hih]

theorem extractFirstBlock_boundary (openT closeT pre b tail : String)
    (hopen : openT.data ≠ []) (hclose : closeT.data ≠ [])
    (hpre : ∀ i < pre.data.length,
      ¬ occursAt openT.data (pre.data ++ openT.data) i)
    (hb : ∀ i < b.data.length,
      ¬ occursAt closeT.data (b.data ++ closeT.data) i) :
    extractFirstBlock openT closeT (pre ++ openT ++ b ++ closeT ++ tail) = some b := by
  unfold extractFirstBlock
  have hdata : (pre ++ openT ++ b ++ closeT ++ tail).data
      = pre.data ++ openT.data ++ (b.data ++ closeT.data ++ tail.data) := by
    simp [String.data_append]
  rw [hdata, splitOnceL_boundary openT.data pre.data _ hopen hpre]
  dsimp only
  rw [splitOnceL_boundary closeT.data b.data tail.data hclose hb]

/-- C10: within one POM file only the first `<properties>` region and
the first `<dependencyManagement>` region are scanned: a file with a
second such region parses identically to the file holding only its
first region, so an entry declared only in the later region
contributes nothing. The hypotheses say the closing tag does not occur
early (inside the first region's body or straddling its end) and the
opening tag does not occur in the leading text. -/
theorem claim_C10 :
    (∀ pre b1 mid b2 post : String,
      (∀ i < pre.data.length,
        ¬ occursAt "<properties>".data (pre.data ++ "<properties>".data) i) →
      (∀ i < b1.data.length,
        ¬ occursAt "</properties>".data (b1.data ++ "</properties>".data) i) →
      parsePomProperties (some (pre ++ "<properties>" ++ b1 ++ "</properties>" ++
          (mid ++ "<properties>" ++ b2 ++ "</properties>" ++ post)))
        = parsePomProperties (some ("" ++ "<properties>" ++ b1 ++ "</properties>" ++ "")) ∧
      (∀ k, mapLookupL k
          (parsePomProperties (some ("" ++ "<properties>" ++ b1 ++ "</properties>" ++ ""))) = none →
        mapLookupL k (parsePomProperties (some (pre ++ "<properties>" ++ b1 ++ "</properties>" ++
          (mid ++ "<properties>" ++ b2 ++ "</properties>" ++ post)))) = none)) ∧
    (∀ pre b1 mid b2 post : String,
      (∀ i < pre.data.length,
        ¬ occursAt "<dependencyManagement>".data
          (pre.data ++ "<dependencyManagement>".data) i) →
      (∀ i < b1.data.length,
        ¬ occursAt "</dependencyManagement>".data
          (b1.data ++ "</dependencyManagement>".data) i) →
      parsePomDependencyManagement (some (pre ++ "<dependencyManagement>" ++ b1 ++
          "</dependencyManagement>" ++
          (mid ++ "<dependencyManagement>" ++ b2 ++ "</dependencyManagement>" ++ post)))
        = parsePomDependencyManagement
            (some ("" ++ "<dependencyManagement>" ++ b1 ++ "</dependencyManagement>" ++ "")) ∧
      (∀ k, mapLookupL k (parsePomDependencyManagement
            (some ("" ++ "<dependencyManagement>" ++ b1 ++ "</dependencyManagement>" ++ ""))) = none →
        mapLookupL k (parsePomDependencyManagement
          (some (pre ++ "<dependencyManagement>" ++ b1 ++ "</dependencyManagement>" ++
            (mid ++ "<dependencyManagement>" ++ b2 ++ "</dependencyManagement>" ++ post)))) = none)) := by
  constructor
  · intro pre b1 mid b2 post hpre hb
    have he1 := extractFirstBlock_boundary "<properties>" "</properties>" pre b1
      (mid ++ "<properties>" ++ b2 ++ "</properties>" ++ post)
      (by decide) (by decide) hpre hb
    have he2 := extractFirstBlock_boundary "<properties>" "</properties>" "" b1 ""
      (by decide) (by decide) (by intro i hi; simp at hi) hb
    have heq : parsePomProperties (some (pre ++ "<properties>" ++ b1 ++ "</properties>" ++
          (mid ++ "<properties>" ++ b2 ++ "</properties>" ++ post)))
        = parsePomProperties (some ("" ++ "<properties>" ++ b1 ++ "</properties>" ++ "")) := by
      simp only [parsePomProperties]
      rw [he1, he2]
    exact ⟨heq, fun k hk => heq ▸ hk⟩
  · intro pre b1 mid b2 post hpre hb
    have he1 := extractFirstBlock_boundary "<dependencyManagement>" "</dependencyManagement>"
      pre b1 (mid ++ "<dependencyManagement>" ++ b2 ++ "</dependencyManagement>" ++ post)
      (by decide) (by decide) hpre hb
    have he2 := extractFirstBlock_boundary "<dependencyManagement>" "</dependencyManagement>"
      "" b1 "" (by decide) (by decide) (by intro i hi; simp at hi) hb
    have heq : parsePomDependencyManagement (some (pre ++ "<dependencyManagement>" ++ b1 ++
          "</dependencyManagement>" ++
          (mid ++ "<dependencyManagement>" ++ b2 ++ "</dependencyManagement>" ++ post)))
        = parsePomDependencyManagement
            (some ("" ++ "<dependencyManagement>" ++ b1 ++ "</dependencyManagement>" ++ "")) := by
      simp only [parsePomDependencyManagement]
      rw [he1, he2]
    exact ⟨heq, fun k hk => heq ▸ hk⟩

/-- C10 witness: a file with two properties regions parses to the
first region's map only (`baz`, declared only in the second region, is
absent), and likewise for two dependency-management regions. -/
theorem claim_C10_witness :
    parsePomProperties (some ("<project>" ++ "<properties>" ++
        "<foo.version>2.3</foo.version>" ++ "</properties>" ++
        ("" ++ "<properties>" ++ "<baz>9</baz>" ++ "</properties>" ++ "</project>")))
      = parsePomProperties (some ("" ++ "<properties>" ++
        "<foo.version>2.3</foo.version>" ++ "</properties>" ++ "")) ∧
    mapLookupL "baz" (parsePomProperties (some ("<project>" ++ "<properties>" ++
        "<foo.version>2.3</foo.version>" ++ "</properties>" ++
        ("" ++ "<properties>" ++ "<baz>9</baz>" ++ "</properties>" ++ "</project>")))) = none ∧
    parsePomDependencyManagement (some ("<project>" ++ "<dependencyManagement>" ++
        "<dependency><groupId>g</groupId><artifactId>a</artifactId><version>5</version></dependency>" ++
        "</dependencyManagement>" ++
        ("" ++ "<dependencyManagement>" ++
         "<dependency><groupId>x</groupId><artifactId>y</artifactId><version>6</version></dependency>" ++
         "</dependencyManagement>" ++ "</project>")))
      = parsePomDependencyManagement (some ("" ++ "<dependencyManagement>" ++
        "<dependency><groupId>g</groupId><artifactId>a</artifactId><version>5</version></dependency>" ++
        "</dependencyManagement>" ++ "")) := by
  have h1 := claim_C10.1 "<project>" "<foo.version>2.3</foo.version>" ""
    "<baz>9</baz>" "</project>" (by decide) (by decide)
  have h2 := claim_C10.2 "<project>"
    "<dependency><groupId>g</groupId><artifactId>a</artifactId><version>5</version></dependency>"
    ""
    "<dependency><groupId>x</groupId><artifactId>y</artifactId><version>6</version></dependency>"
    "</project>" (by decide) (by decide)
  exact ⟨h1.1, h1.2 "baz" (by decide), h2.1⟩

/-! ## Structure of the dependency map built by `analyzeRepository` -/

theorem foldl_keys_nodup {α β : Type}
    (s : List (String × α) → β → List (String × α))
    (hs : ∀ m b, (m.map Prod.fst).Nodup → ((s m b).map Prod.fst).Nodup)
    (l : List β) (m : List (String × α)) (h : (m.map Prod.fst).Nodup) :
    ((l.foldl s m).map Prod.fst).Nodup := by
  induction l generalizing m with
  | nil => simpa
  | cons b rest ih => exact ih (s m b) (hs m b h)

theorem perFileWith_keys_nodup (root : String) (parseP : String → List String)
    (paths : List String) :
    ((perFileWith root parseP paths).map Prod.fst).Nodup := by
  unfold perFileWith
  exact foldl_keys_nodup _ (fun m p h => mapInsertL_keys_nodup _ _ m h) paths [] (by simp)

theorem rustPerFile_keys_nodup (env : Env) (root : String) (fs : FS)
    (paths : List String) :
    ((rustPerFile env root fs paths).map Prod.fst).Nodup := by
  unfold rustPerFile
  refine foldl_keys_nodup _ ?_ paths [] (by simp)
  intro m p h
  dsimp only
  split
  · exact mapInsertL_keys_nodup _ _ m h
  · exact h

theorem mapInsertL_lookup_isSome_iff {α : Type} (k k2 : String) (v : α)
    (m : List (String × α)) :
    (mapLookupL k2 (mapInsertL k v m)).isSome ↔
      k2 = k ∨ (mapLookupL k2 m).isSome := by
  by_cases h : k = k2
  · subst h
    simp [mapLookupL_mapInsertL_self]
  · rw [mapLookupL_mapInsertL_other v m h]
    simp [Ne.symm h]

theorem perFileWith_foldl_isSome (root : String) (parseP : String → List String)
    (paths : List String) (m : List (String × List String)) (k : String) :
    (mapLookupL k (paths.foldl
        (fun m2 p => mapInsertL (relPath root p) (parseP p) m2) m)).isSome ↔
      (∃ p ∈ paths, relPath root p = k) ∨ (mapLookupL k m).isSome := by
  induction paths generalizing m with
  | nil => simp
  | cons p rest ih =>
    rw [List.foldl_cons, ih]
    rw [mapInsertL_lookup_isSome_iff]
    constructor
    · rintro (⟨q, hq, hrel⟩ | h | h)
      · exact Or.inl ⟨q, List.mem_cons_of_mem p hq, hrel⟩
      · exact Or.inl ⟨p, List.mem_cons_self p rest, h.symm⟩
      · exact Or.inr h
    · rintro (⟨q, hq, hrel⟩ | h)
      · rcases List.mem_cons.mp hq with rfl | hq2
        · exact Or.inr (Or.inl hrel.symm)
        · exact Or.inl ⟨q, hq2, hrel⟩
      · exact Or.inr (Or.inr h)

theorem perFileWith_lookup_isSome (root : String) (parseP : String → List String)
    (paths : List String) (p : String) (hp : p ∈ paths) :
    (mapLookupL (relPath root p) (perFileWith root parseP paths)).isSome := by
  unfold perFileWith
  rw [perFileWith_foldl_isSome]
  exact Or.inl ⟨p, hp, rfl⟩

theorem rustPerFile_lookup_isSome_iff (env : Env) (root : String) (fs : FS)
    (paths : List String) (k : String) :
    (mapLookupL k (rustPerFile env root fs paths)).isSome ↔
      ∃ p ∈ paths, relPath root p = k ∧ env.rustParse (fsRead fs p) ≠ [] := by
  unfold rustPerFile
  suffices h : ∀ m : List (String × List String),
      (mapLookupL k (paths.foldl
        (fun m2 p =>
          if 0 < (env.rustParse (fsRead fs p)).length
          then mapInsertL (relPath root p) (env.rustParse (fsRead fs p)) m2 else m2)
        m)).isSome ↔
      (∃ p ∈ paths, relPath root p = k ∧ env.rustParse (fsRead fs p) ≠ []) ∨
        (mapLookupL k m).isSome by
    rw [h []]
    simp [mapLookupL]
  intro m
  induction paths generalizing m with
  | nil => simp
  | cons p rest ih =>
    rw [List.foldl_cons]
    by_cases hlen : 0 < (env.rustParse (fsRead fs p)).length
    · rw [if_pos hlen, ih, mapInsertL_lookup_isSome_iff]
      have hne : env.rustParse (fsRead fs p) ≠ [] := by
        intro hc
        rw [hc] at hlen
        simp at hlen
      constructor
      · rintro (⟨q, hq, hrel, hq2⟩ | h | h)
        · exact Or.inl ⟨q, List.mem_cons_of_mem p hq, hrel, hq2⟩
        · exact Or.inl ⟨p, List.mem_cons_self p rest, h.symm, hne⟩
        · exact Or.inr h
      · rintro (⟨q, hq, hrel, hq2⟩ | h)
        · rcases List.mem_cons.mp hq with rfl | hq3
          · exact Or.inr (Or.inl hrel.symm)
          · exact Or.inl ⟨q, hq3, hrel, hq2⟩
        · exact Or.inr (Or.inr h)
    · rw [if_neg hlen, ih]
      have hnil : env.rustParse (fsRead fs p) = [] := by
        cases hq : env.rustParse (fsRead fs p)
        · rfl
        · rw [hq] at hlen
          simp at hlen
      constructor
      · rintro (⟨q, hq, hrel, hq2⟩ | h)
        · exact Or.inl ⟨q, List.mem_cons_of_mem p hq, hrel, hq2⟩
        · exact Or.inr h
      · rintro (⟨q, hq, hrel, hq2⟩ | h)
        · rcases List.mem_cons.mp hq with rfl | hq3
          · exact absurd hnil hq2
          · exact Or.inl ⟨q, hq3, hrel, hq2⟩
        · exact Or.inr h

theorem ecoPerFile_cases (env : Env) (root : String) (fs : FS) (k : String)
    (paths : List String) :
    ∃ parseP : String → List String,
      ecoPerFile env root fs k paths = perFileWith root parseP paths := by
  unfold ecoPerFile
  split
  · exact ⟨_, rfl⟩
  · split
    · exact ⟨_, rfl⟩
    · split
      · exact ⟨_, rfl⟩
      · split
        · exact ⟨_, rfl⟩
        · split
          · exact ⟨_, rfl⟩
          · split
            · exact ⟨_, rfl⟩
            · split
              · exact ⟨_, rfl⟩
              · exact ⟨_, rfl⟩

theorem mem_mapInsertL {α : Type} (k : String) (v : α) (m : List (String × α))
    (fd : String × α) (h : fd ∈ mapInsertL k v m) : fd ∈ m ∨ fd = (k, v) := by
  induction m with
  | nil => simpa [mapInsertL] using h
  | cons p rest ih =>
    obtain ⟨k2, v2⟩ := p
    by_cases hk : k2 = k
    · subst hk
      simp only [mapInsertL, if_pos rfl] at h
      rcases List.mem_cons.mp h with rfl | h2
      · exact Or.inr rfl
      · exact Or.inl (List.mem_cons_of_mem _ h2)
    · simp only [mapInsertL, if_neg hk] at h
      rcases List.mem_cons.mp h with rfl | h2
      · exact Or.inl (List.mem_cons_self _ _)
      · rcases ih h2 with h3 | h3
        · exact Or.inl (List.mem_cons_of_mem _ h3)
        · exact Or.inr h3

theorem perFileWith_mem (root : String) (parseP : String → List String)
    (paths : List String) (fd : String × List String)
    (h : fd ∈ perFileWith root parseP paths) :
    ∃ p ∈ paths, fd = (relPath root p, parseP p) := by
  unfold perFileWith at h
  suffices hgen : ∀ m : List (String × List String),
      fd ∈ paths.foldl (fun m2 p => mapInsertL (relPath root p) (parseP p) m2) m →
      fd ∈ m ∨ ∃ p ∈ paths, fd = (relPath root p, parseP p) by
    rcases hgen [] h with h2 | h2
    · simp at h2
    · exact h2
  clear h
  induction paths with
  | nil => exact fun m hm => Or.inl hm
  | cons p rest ih =>
    intro m hm
    rw [List.foldl_cons] at hm
    rcases ih _ hm with h2 | h2
    · rcases mem_mapInsertL _ _ _ _ h2 with h3 | h3
      · exact Or.inl h3
      · exact Or.inr ⟨p, List.mem_cons_self p rest, h3⟩
    · rcases h2 with ⟨q, hq, hfd⟩
      exact Or.inr ⟨q, List.mem_cons_of_mem p hq, hfd⟩

theorem rustPerFile_mem (env : Env) (root : String) (fs : FS)
    (paths : List String) (fd : String × List String)
    (h : fd ∈ rustPerFile env root fs paths) :
    ∃ p ∈ paths, fd = (relPath root p, env.rustParse (fsRead fs p)) := by
  unfold rustPerFile at h
  suffices hgen : ∀ m : List (String × List String),
      fd ∈ paths.foldl (fun m2 p =>
        if 0 < (env.rustParse (fsRead fs p)).length
        then mapInsertL (relPath root p) (env.rustParse (fsRead fs p)) m2 else m2) m →
      fd ∈ m ∨ ∃ p ∈ paths, fd = (relPath root p, env.rustParse (fsRead fs p)) by
    rcases hgen [] h with h2 | h2
    · simp at h2
    · exact h2
  clear h
  induction paths with
  | nil => exact fun m hm => Or.inl hm
  | cons p rest ih =>
    intro m hm
    rw [List.foldl_cons] at hm
    rcases ih _ hm with h2 | h2
    · by_cases hlen : 0 < (env.rustParse (fsRead fs p)).length
      · rw [if_pos hlen] at h2
        rcases mem_mapInsertL _ _ _ _ h2 with h3 | h3
        · exact Or.inl h3
        · exact Or.inr ⟨p, List.mem_cons_self p rest, h3⟩
      · rw [if_neg hlen] at h2
        exact Or.inl h2
    · rcases h2 with ⟨q, hq, hfd⟩
      exact Or.inr ⟨q, List.mem_cons_of_mem p hq, hfd⟩

theorem copy_foldl_adjust (eco : String) (pf : List (String × List String))
    (acc : List (String × List (String × List String)))
    (x : List (String × List String)) (hfresh : mapLookupL eco acc = none) :
    pf.foldl (fun ac fd => mapAdjust eco (fun inner => mapInsertL fd.1 fd.2 inner) ac)
      (acc ++ [(eco, x)])
    = acc ++ [(eco, pf.foldl (fun inner fd => mapInsertL fd.1 fd.2 inner) x)] := by
  induction pf generalizing x with
  | nil => rfl
  | cons fd rest ih =>
    rw [List.foldl_cons, mapAdjust_append_last eco _ x acc hfresh, ih, List.foldl_cons]

theorem copyFold_gen (pf : List (String × List String)) :
    ∀ m : List (String × List String), (pf.map Prod.fst).Nodup →
      (∀ fd ∈ pf, mapLookupL fd.1 m = none) →
      pf.foldl (fun inner fd => mapInsertL fd.1 fd.2 inner) m = m ++ pf := by
  induction pf with
  | nil => intro m _ _; simp
  | cons fd rest ih =>
    intro m hnd hdisj
    rw [List.foldl_cons, mapInsertL_absent fd.1 fd.2 m
      (hdisj fd (List.mem_cons_self fd rest))]
    simp only [List.map_cons, List.nodup_cons] at hnd
    rw [ih _ hnd.2 ?_]
    · simp
    · intro fd2 hfd2
      rw [mapLookupL_append]
      rw [hdisj fd2 (List.mem_cons_of_mem fd hfd2)]
      have hne : fd.1 ≠ fd2.1 := by
        intro hc
        exact hnd.1 (hc ▸ List.mem_map_of_mem Prod.fst hfd2)
      simp [mapLookupL, hne]

theorem copyFold_eq_self (pf : List (String × List String))
    (hnd : (pf.map Prod.fst).Nodup) :
    pf.foldl (fun inner fd => mapInsertL fd.1 fd.2 inner) [] = pf := by
  simpa using copyFold_gen pf [] hnd (by simp [mapLookupL])

theorem ecoPerFile_keys_nodup (env : Env) (root : String) (fs : FS) (k : String)
    (paths : List String) :
    ((ecoPerFile env root fs k paths).map Prod.fst).Nodup := by
  rcases ecoPerFile_cases env root fs k paths with ⟨parseP, hp⟩
  rw [hp]
  exact perFileWith_keys_nodup root parseP paths

theorem depsStep_fresh (env : Env) (root : String) (fs : FS)
    (acc : List (String × List (String × List String))) (e : String × List String)
    (hfresh : mapLookupL (niceName e.1) acc = none) :
    depsStep env root fs acc e
      = acc ++ [(niceName e.1, ecoFileMap env root fs e)] := by
  unfold depsStep ecoFileMap
  dsimp only
  by_cases hrust : e.1 = "rust"
  · rw [if_pos hrust, if_pos hrust]
    by_cases hlen : 0 < (rustPerFile env root fs e.2).length
    · rw [if_pos hlen, mapInsertL_absent _ _ _ hfresh]
      have hsome : (mapLookupL (niceName e.1)
          (acc ++ [(niceName e.1, rustPerFile env root fs e.2)])).isSome := by
        rw [mapLookupL_append, hfresh]
        simp [mapLookupL]
      rw [if_pos hsome]
    · rw [if_neg hlen]
      have hnil : rustPerFile env root fs e.2 = [] := by
        cases hq : rustPerFile env root fs e.2
        · rfl
        · rw [hq] at hlen
          simp at hlen
      have hnotsome : ¬ (mapLookupL (niceName e.1) acc).isSome := by
        rw [hfresh]
        simp
      rw [if_neg hnotsome, mapInsertL_absent _ _ _ hfresh, hnil]
  · rw [if_neg hrust, if_neg hrust]
    have hnotsome : ¬ (mapLookupL (niceName e.1) acc).isSome := by
      rw [hfresh]
      simp
    rw [if_neg hnotsome, mapInsertL_absent _ _ _ hfresh,
      copy_foldl_adjust _ _ _ _ hfresh,
      copyFold_eq_self _ (ecoPerFile_keys_nodup env root fs e.1 e.2)]

theorem depsFold_eq (env : Env) (root : String) (fs : FS)
    (ms : List (String × List String))
    (acc : List (String × List (String × List String)))
    (hms : ∀ e ∈ ms, mapLookupL (niceName e.1) acc = none)
    (hnd : (ms.map (fun e => niceName e.1)).Nodup) :
    ms.foldl (depsStep env root fs) acc
      = acc ++ ms.map (fun e => (niceName e.1, ecoFileMap env root fs e)) := by
  induction ms generalizing acc with
  | nil => simp
  | cons e rest ih =>
    simp only [List.map_cons, List.nodup_cons] at hnd
    rw [List.foldl_cons, depsStep_fresh env root fs acc e
      (hms e (List.mem_cons_self e rest))]
    rw [ih _ ?_ hnd.2]
    · simp
    · intro e2 he2
      rw [mapLookupL_append, hms e2 (List.mem_cons_of_mem e he2)]
      have hne : niceName e.1 ≠ niceName e2.1 := by
        intro hc
        exact hnd.1 (hc ▸ List.mem_map_of_mem (fun x => niceName x.1) he2)
      simp [mapLookupL, hne]

theorem mapLookupL_map_of_mem (ms : List (String × List String))
    (g : String × List String → List (String × List String))
    (k : String) (paths : List String) (hmem : (k, paths) ∈ ms)
    (hnd : (ms.map (fun e => niceName e.1)).Nodup) :
    mapLookupL (niceName k) (ms.map (fun e => (niceName e.1, g e)))
      = some (g (k, paths)) := by
  induction ms with
  | nil => simp at hmem
  | cons e rest ih =>
    simp only [List.map_cons, List.nodup_cons] at hnd
    rcases List.mem_cons.mp hmem with rfl | h2
    · simp [mapLookupL]
    · have hne : niceName e.1 ≠ niceName k := by
        intro hc
        exact hnd.1 (hc ▸ List.mem_map_of_mem (fun x => niceName x.1) h2)
      simp only [List.map_cons, mapLookupL, if_neg hne]
      exact ih h2 hnd.2

/-! ## C6: presence of scanned files in the result -/

theorem analyzeRepository_deps (env : Env) (repoURL root : String)
    (ms : List (String × List String)) (fs : FS) :
    (analyzeRepository env repoURL root ms fs).deps
      = ms.foldl (depsStep env root fs) [] := rfl

/-- C6 counterexample: a repository with one (unreadable) Cargo.toml.
Per the spec's never-fail contract the Rust parser yields the empty
list for it, and the `rust` case of `analyzeRepository` then drops the
file: the `Rust` ecosystem appears, but the scanned file
`Cargo.toml` is NOT a key of its map, so a caller cannot distinguish
it from a file that was never scanned. -/
theorem claim_C6_counterexample :
    mapLookupL "Rust"
      (analyzeRepository env0 "u" "r" [("rust", ["r/Cargo.toml"])] []).deps
      = some [] ∧
    mapLookupL (relPath "r" "r/Cargo.toml")
      ((mapLookupL "Rust"
        (analyzeRepository env0 "u" "r" [("rust", ["r/Cargo.toml"])] []).deps).getD [])
      = none := by
  refine ⟨by decide, by decide⟩

/-- C6 (amended): for every ecosystem other than `rust`, every listed
file appears as a key of its ecosystem's map, empty list included;
for `rust`, a file path appears as a key exactly when some listed path
with the same relative name parses to a non-empty list, so files whose
parse is empty are silently absent. -/
theorem claim_C6_amended (env : Env) (repoURL root : String)
    (ms : List (String × List String)) (fs : FS) (hnd : NodupEcos ms) :
    (∀ k paths, (k, paths) ∈ ms → k ≠ "rust" →
      ∀ p ∈ paths, ∃ inner,
        mapLookupL (niceName k) (analyzeRepository env repoURL root ms fs).deps
          = some inner ∧
        (mapLookupL (relPath root p) inner).isSome) ∧
    (∀ paths, ("rust", paths) ∈ ms →
      ∃ inner,
        mapLookupL "Rust" (analyzeRepository env repoURL root ms fs).deps
          = some inner ∧
        ∀ k2, ((mapLookupL k2 inner).isSome ↔
          ∃ p ∈ paths, relPath root p = k2 ∧ env.rustParse (fsRead fs p) ≠ [])) := by
  have hdeps : (analyzeRepository env repoURL root ms fs).deps
      = ms.map (fun e => (niceName e.1, ecoFileMap env root fs e)) := by
    rw [analyzeRepository_deps,
      depsFold_eq env root fs ms [] (fun e _ => rfl) hnd]
    simp
  constructor
  · intro k paths hmem hk p hp
    refine ⟨ecoFileMap env root fs (k, paths), ?_, ?_⟩
    · rw [hdeps]
      exact mapLookupL_map_of_mem ms _ k paths hmem hnd
    · unfold ecoFileMap
      rw [if_neg hk]
      rcases ecoPerFile_cases env root fs k paths with ⟨parseP, hpp⟩
      rw [hpp]
      exact perFileWith_lookup_isSome root parseP paths p hp
  · intro paths hmem
    refine ⟨ecoFileMap env root fs ("rust", paths), ?_, ?_⟩
    · rw [hdeps]
      exact mapLookupL_map_of_mem ms _ "rust" paths hmem hnd
    · intro k2
      unfold ecoFileMap
      rw [if_pos rfl]
      exact rustPerFile_lookup_isSome_iff env root fs paths k2

/-- C6 witness: the scanned go.mod appears as a key of the Go map; the
rust map's keys are characterised by non-empty parses. -/
theorem claim_C6_amended_witness :
    (∃ inner,
      mapLookupL "Go" (analyzeRepository env0 "u" "r" cMs cFs).deps = some inner ∧
      (mapLookupL (relPath "r" "r/go.mod") inner).isSome) ∧
    (∃ inner,
      mapLookupL "Rust" (analyzeRepository env0 "u" "r" cMs cFs).deps = some inner ∧
      ∀ k2, ((mapLookupL k2 inner).isSome ↔
        ∃ p ∈ ["r/c.toml"], relPath "r" p = k2 ∧ env0.rustParse (fsRead cFs p) ≠ [])) := by
  have h := claim_C6_amended env0 "u" "r" cMs cFs (by decide)
  exact ⟨h.1 "go" ["r/go.mod"] (by decide) (by decide) "r/go.mod" (by decide),
    h.2 ["r/c.toml"] (by decide)⟩

/-! ## C7: canonical output and iteration-order independence -/

theorem sortPairs_sorted {α : Type} (l : List (String × α)) :
    List.Sorted keyLe (sortPairs l) :=
  List.sorted_insertionSort keyLe l

theorem sortPairs_perm {α : Type} (l : List (String × α)) :
    (sortPairs l).Perm l :=
  List.perm_insertionSort keyLe l

theorem sorted_keys_nodup_eq {α : Type} :
    ∀ (l1 l2 : List (String × α)), l1.Perm l2 →
      List.Sorted keyLe l1 → List.Sorted keyLe l2 →
      (l1.map Prod.fst).Nodup → l1 = l2 := by
  intro l1
  induction l1 with
  | nil =>
    intro l2 hp _ _ _
    exact (List.Perm.nil_eq hp).symm ▸ rfl
  | cons a t1 ih =>
    intro l2 hp hs1 hs2 hnd
    cases l2 with
    | nil => exact absurd hp.symm (by simp)
    | cons b t2 =>
      have ha2 : a ∈ b :: t2 := hp.mem_iff.mp (List.mem_cons_self a t1)
      have hb1 : b ∈ a :: t1 := hp.mem_iff.mpr (List.mem_cons_self b t2)
      rw [List.sorted_cons] at hs1 hs2
      have hab : a = b := by
        rcases List.mem_cons.mp ha2 with h1 | h1
        · exact h1
        · have hba : keyLe b a := hs2.1 a h1
          rcases List.mem_cons.mp hb1 with h2 | h2
          · exact h2.symm
          · have hab2 : keyLe a b := hs1.1 b h2
            have hab2b : strLeR a.1 b.1 := hab2
            have hbab : strLeR b.1 a.1 := hba
            have hkey : a.1 = b.1 := antisymm hab2b hbab
            exfalso
            simp only [List.map_cons, List.nodup_cons] at hnd
            apply hnd.1
            rw [hkey]
            exact List.mem_map_of_mem Prod.fst h2
      subst hab
      have hperm : t1.Perm t2 := hp.cons_inv
      simp only [List.map_cons, List.nodup_cons] at hnd
      rw [ih t2 hperm hs1.2 hs2.2 hnd.2]

theorem sortPairs_eq_of_perm {α : Type} {l1 l2 : List (String × α)}
    (h : l1.Perm l2) (hnd : (l1.map Prod.fst).Nodup) :
    sortPairs l1 = sortPairs l2 := by
  refine sorted_keys_nodup_eq _ _ ?_ (sortPairs_sorted l1) (sortPairs_sorted l2) ?_
  · exact ((sortPairs_perm l1).trans h).trans (sortPairs_perm l2).symm
  · exact (((sortPairs_perm l1).map Prod.fst).nodup_iff).mpr hnd

theorem perFileWith_eq_map (root : String) (parseP : String → List String)
    (paths : List String) (hnd : (paths.map (relPath root)).Nodup) :
    perFileWith root parseP paths
      = paths.map (fun p => (relPath root p, parseP p)) := by
  unfold perFileWith
  suffices hgen : ∀ m : List (String × List String),
      (paths.map (relPath root)).Nodup →
      (∀ p ∈ paths, mapLookupL (relPath root p) m = none) →
      paths.foldl (fun m2 p => mapInsertL (relPath root p) (parseP p) m2) m
        = m ++ paths.map (fun p => (relPath root p, parseP p)) by
    simpa using hgen [] hnd (by simp [mapLookupL])
  clear hnd
  induction paths with
  | nil => intro m _ _; simp
  | cons p rest ih =>
    intro m hnd hdisj
    simp only [List.map_cons, List.nodup_cons] at hnd
    rw [List.foldl_cons, mapInsertL_absent _ _ _ (hdisj p (List.mem_cons_self p rest)),
      ih _ hnd.2 ?_]
    · simp
    · intro q hq
      rw [mapLookupL_append, hdisj q (List.mem_cons_of_mem p hq)]
      have hne : relPath root p ≠ relPath root q := by
        intro hc
        exact hnd.1 (hc ▸ List.mem_map_of_mem (relPath root) hq)
      simp [mapLookupL, hne]

theorem rustPerFile_eq_filterMap (env : Env) (root : String) (fs : FS)
    (paths : List String) (hnd : (paths.map (relPath root)).Nodup) :
    rustPerFile env root fs paths
      = paths.filterMap (fun p =>
          if 0 < (env.rustParse (fsRead fs p)).length
          then some (relPath root p, env.rustParse (fsRead fs p)) else none) := by
  unfold rustPerFile
  suffices hgen : ∀ m : List (String × List String),
      (paths.map (relPath root)).Nodup →
      (∀ p ∈ paths, mapLookupL (relPath root p) m = none) →
      paths.foldl (fun m2 p =>
          if 0 < (env.rustParse (fsRead fs p)).length
          then mapInsertL (relPath root p) (env.rustParse (fsRead fs p)) m2 else m2) m
        = m ++ paths.filterMap (fun p =>
            if 0 < (env.rustParse (fsRead fs p)).length
            then some (relPath root p, env.rustParse (fsRead fs p)) else none) by
    simpa using hgen [] hnd (by simp [mapLookupL])
  clear hnd
  induction paths with
  | nil => intro m _ _; simp
  | cons p rest ih =>
    intro m hnd hdisj
    simp only [List.map_cons, List.nodup_cons] at hnd
    have hrest : ∀ m2 : List (String × List String),
        (∀ q ∈ rest, mapLookupL (relPath root q) m2 = none) →
        rest.foldl (fun m3 q =>
            if 0 < (env.rustParse (fsRead fs q)).length
            then mapInsertL (relPath root q) (env.rustParse (fsRead fs q)) m3 else m3) m2
          = m2 ++ rest.filterMap (fun q =>
              if 0 < (env.rustParse (fsRead fs q)).length
              then some (relPath root q, env.rustParse (fsRead fs q)) else none) :=
      fun m2 hd => ih m2 hnd.2 hd
    by_cases hlen : 0 < (env.rustParse (fsRead fs p)).length
    · rw [List.foldl_cons, if_pos hlen,
        mapInsertL_absent _ _ _ (hdisj p (List.mem_cons_self p rest)),
        hrest _ ?_]
      · rw [List.filterMap_cons]
        simp [hlen]
      · intro q hq
        rw [mapLookupL_append, hdisj q (List.mem_cons_of_mem p hq)]
        have hne : relPath root p ≠ relPath root q := by
          intro hc
          exact hnd.1 (hc ▸ List.mem_map_of_mem (relPath root) hq)
        simp [mapLookupL, hne]
    · rw [List.foldl_cons, if_neg hlen,
        hrest _ (fun q hq => hdisj q (List.mem_cons_of_mem p hq))]
      rw [List.filterMap_cons]
      simp [hlen]

theorem parseGoModDeps_sorted (c : Option String) :
    List.Sorted strLeR (parseGoModDeps c) := by
  unfold parseGoModDeps
  split
  · simp
  · exact sortStrings_sorted _

theorem parsePackageJSONDeps_sorted (decode : String → Option JVal)
    (fmtV : JVal → String) (c : Option String) :
    List.Sorted strLeR (parsePackageJSONDeps decode fmtV c) := by
  unfold parsePackageJSONDeps
  split
  · simp
  · split
    · exact sortStrings_sorted _
    · simp

theorem parsePomDeps_sorted (c : Option String) :
    List.Sorted strLeR (parsePomDeps c) := by
  unfold parsePomDeps
  split
  · simp
  · exact sortStrings_sorted _

theorem parseGradleDeps_sorted (c : Option String) :
    List.Sorted strLeR (parseGradleDeps c) := by
  unfold parseGradleDeps
  split
  · simp
  · exact sortStrings_sorted _

theorem ecoPerFile_values_sorted (env : Env) (root : String) (fs : FS)
    (k : String) (paths : List String) (hEnv : EnvSorted env)
    (fd : String × List String) (hfd : fd ∈ ecoPerFile env root fs k paths) :
    List.Sorted strLeR fd.2 := by
  unfold ecoPerFile at hfd
  split at hfd
  · rcases perFileWith_mem _ _ _ _ hfd with ⟨p, _, rfl⟩
    exact parseGoModDeps_sorted _
  · split at hfd
    · rcases perFileWith_mem _ _ _ _ hfd with ⟨p, _, rfl⟩
      exact parsePackageJSONDeps_sorted _ _ _
    · split at hfd
      · rcases perFileWith_mem _ _ _ _ hfd with ⟨p, _, rfl⟩
        exact parsePomDeps_sorted _
      · split at hfd
        · rcases perFileWith_mem _ _ _ _ hfd with ⟨p, _, rfl⟩
          exact parseGradleDeps_sorted _
        · split at hfd
          · rcases perFileWith_mem _ _ _ _ hfd with ⟨p, _, rfl⟩
            dsimp only
            split
            · exact hEnv.2.2.1 _
            · exact hEnv.2.1 _
          · split at hfd
            · rcases perFileWith_mem _ _ _ _ hfd with ⟨p, _, rfl⟩
              exact hEnv.2.2.2.1 _
            · split at hfd
              · rcases perFileWith_mem _ _ _ _ hfd with ⟨p, _, rfl⟩
                exact hEnv.2.2.2.2 _
              · rcases perFileWith_mem _ _ _ _ hfd with ⟨p, _, rfl⟩
                simp

theorem ecoFileMap_values_sorted (env : Env) (root : String) (fs : FS)
    (e : String × List String) (hEnv : EnvSorted env)
    (fd : String × List String) (hfd : fd ∈ ecoFileMap env root fs e) :
    List.Sorted strLeR fd.2 := by
  unfold ecoFileMap at hfd
  split at hfd
  · rcases rustPerFile_mem _ _ _ _ _ hfd with ⟨p, _, rfl⟩
    exact hEnv.1 _
  · exact ecoPerFile_values_sorted env root fs e.1 e.2 hEnv fd hfd

theorem map_eq_of_forall₂ {α β : Type} {R : α → α → Prop} {g : α → β}
    {l1 l2 : List α} (h : List.Forall₂ R l1 l2)
    (hg : ∀ a b, a ∈ l1 → R a b → g a = g b) : l1.map g = l2.map g := by
  induction h with
  | nil => rfl
  | @cons a b t1 t2 hab hrest ih =>
    simp only [List.map_cons]
    rw [hg a b (List.mem_cons_self a t1) hab,
      ih (fun x y hx hr => hg x y (List.mem_cons_of_mem a hx) hr)]

theorem MPerm_econames {ms1 ms2 : List (String × List String)} (h : MPerm ms1 ms2) :
    (ms1.map (fun e => niceName e.1)).Perm (ms2.map (fun e => niceName e.1)) := by
  obtain ⟨mid, h1, h2⟩ := h
  have heq : mid.map (fun e => niceName e.1) = ms2.map (fun e => niceName e.1) :=
    map_eq_of_forall₂ h2 (fun a b _ hab => by rw [hab.1])
  rw [← heq]
  exact h1.map _

theorem MRel_paths_iff (root x : String) {mid ms2 : List (String × List String)}
    (h : List.Forall₂ MRel mid ms2) :
    ((∃ e ∈ mid, ∃ p ∈ e.2, x = relPath root p) ↔
      (∃ e ∈ ms2, ∃ p ∈ e.2, x = relPath root p)) := by
  induction h with
  | nil => simp
  | @cons a b t1 t2 hab hrest ih =>
    simp only [List.mem_cons]
    constructor
    · rintro ⟨e, (rfl | he), p, hp, hx⟩
      · exact ⟨b, Or.inl rfl, p, hab.2.mem_iff.mp hp, hx⟩
      · rcases ih.mp ⟨e, he, p, hp, hx⟩ with ⟨e2, he2, hr⟩
        exact ⟨e2, Or.inr he2, hr⟩
    · rintro ⟨e, (rfl | he), p, hp, hx⟩
      · exact ⟨a, Or.inl rfl, p, hab.2.mem_iff.mpr hp, hx⟩
      · rcases ih.mpr ⟨e, he, p, hp, hx⟩ with ⟨e2, he2, hr⟩
        exact ⟨e2, Or.inr he2, hr⟩

theorem mem_fileSet (root : String) (ms : List (String × List String)) :
    ∀ (s : List String) (x : String),
      x ∈ ms.foldl (fun s2 e => e.2.foldl (fun s3 p => setInsert s3 (relPath root p)) s2) s ↔
        x ∈ s ∨ ∃ e ∈ ms, ∃ p ∈ e.2, x = relPath root p := by
  induction ms with
  | nil =>
    intro s x
    simp
  | cons e rest ih =>
    intro s x
    rw [List.foldl_cons, ih, mem_foldl_setInsert (relPath root) e.2 s x]
    constructor
    · rintro ((h | ⟨p, hp, hx⟩) | ⟨e2, he2, p, hp, hx⟩)
      · exact Or.inl h
      · exact Or.inr ⟨e, List.mem_cons_self e rest, p, hp, hx⟩
      · exact Or.inr ⟨e2, List.mem_cons_of_mem e he2, p, hp, hx⟩
    · rintro (h | ⟨e2, he2, p, hp, hx⟩)
      · exact Or.inl (Or.inl h)
      · rcases List.mem_cons.mp he2 with rfl | h3
        · exact Or.inl (Or.inr ⟨p, hp, hx⟩)
        · exact Or.inr ⟨e2, h3, p, hp, hx⟩

theorem fileSet_nodup (root : String) (ms : List (String × List String)) :
    ∀ s : List String, s.Nodup →
      (ms.foldl (fun s2 e => e.2.foldl (fun s3 p => setInsert s3 (relPath root p)) s2) s).Nodup := by
  induction ms with
  | nil =>
    intro s h
    simpa
  | cons e rest ih =>
    intro s h
    rw [List.foldl_cons]
    exact ih _ (nodup_foldl_setInsert (relPath root) e.2 s h)

theorem analyzeRepository_typ (env : Env) (repoURL root : String)
    (ms : List (String × List String)) (fs : FS) :
    (analyzeRepository env repoURL root ms fs).typ
      = sortStrings (ms.map (fun e => niceName e.1)) := rfl

theorem analyzeRepository_files (env : Env) (repoURL root : String)
    (ms : List (String × List String)) (fs : FS) :
    (analyzeRepository env repoURL root ms fs).files
      = sortStrings (ms.foldl
          (fun s e => e.2.foldl (fun s2 p => setInsert s2 (relPath root p)) s) []) := rfl

theorem ecoPerFile_param (env : Env) (root : String) (fs : FS) (k : String) :
    ∃ parseP : String → List String, ∀ paths,
      ecoPerFile env root fs k paths = perFileWith root parseP paths := by
  by_cases h1 : k = "go"
  · refine ⟨fun p => parseGoModDeps (fsRead fs p), fun paths => ?_⟩
    unfold ecoPerFile
    rw [if_pos h1]
  by_cases h2 : k = "node/npm"
  · refine ⟨fun p => parsePackageJSONDeps env.decode env.fmtV (fsRead fs p), fun paths => ?_⟩
    unfold ecoPerFile
    rw [if_neg h1, if_pos h2]
  by_cases h3 : k = "maven"
  · refine ⟨fun p => parsePomDeps (fsRead fs p), fun paths => ?_⟩
    unfold ecoPerFile
    rw [if_neg h1, if_neg h2, if_pos h3]
  by_cases h4 : k = "gradle"
  · refine ⟨fun p => parseGradleDeps (fsRead fs p), fun paths => ?_⟩
    unfold ecoPerFile
    rw [if_neg h1, if_neg h2, if_neg h3, if_pos h4]
  by_cases h5 : k = "python"
  · refine ⟨fun p =>
      if strHasSuffix p "setup.py" then env.setupParse (fsRead fs p)
      else env.reqParse (fsRead fs p), fun paths => ?_⟩
    unfold ecoPerFile
    rw [if_neg h1, if_neg h2, if_neg h3, if_neg h4, if_pos h5]
  by_cases h6 : k = "swift"
  · refine ⟨fun p => env.swiftParse (fsRead fs p), fun paths => ?_⟩
    unfold ecoPerFile
    rw [if_neg h1, if_neg h2, if_neg h3, if_neg h4, if_neg h5, if_pos h6]
  by_cases h7 : k = "ruby"
  · refine ⟨fun p => env.rubyParse (fsRead fs p), fun paths => ?_⟩
    unfold ecoPerFile
    rw [if_neg h1, if_neg h2, if_neg h3, if_neg h4, if_neg h5, if_neg h6, if_pos h7]
  refine ⟨fun _ => [], fun paths => ?_⟩
  unfold ecoPerFile
  rw [if_neg h1, if_neg h2, if_neg h3, if_neg h4, if_neg h5, if_neg h6, if_neg h7]

theorem ecoFileMap_sortPairs_eq (env : Env) (root : String) (fs : FS)
    (a b : String × List String) (hab : MRel a b)
    (hna : (a.2.map (relPath root)).Nodup) :
    sortPairs (ecoFileMap env root fs a) = sortPairs (ecoFileMap env root fs b) := by
  have hpp : a.2.Perm b.2 := hab.2
  have hnb : (b.2.map (relPath root)).Nodup := ((hpp.map (relPath root)).nodup_iff).mp hna
  unfold ecoFileMap
  rw [← hab.1]
  by_cases hrust : a.1 = "rust"
  · rw [if_pos hrust, if_pos hrust,
      rustPerFile_eq_filterMap env root fs a.2 hna,
      rustPerFile_eq_filterMap env root fs b.2 hnb]
    apply sortPairs_eq_of_perm (hpp.filterMap _)
    rw [← rustPerFile_eq_filterMap env root fs a.2 hna]
    exact rustPerFile_keys_nodup env root fs a.2
  · rw [if_neg hrust, if_neg hrust]
    obtain ⟨pp, hpp2⟩ := ecoPerFile_param env root fs a.1
    rw [hpp2 a.2, hpp2 b.2,
      perFileWith_eq_map root pp a.2 hna, perFileWith_eq_map root pp b.2 hnb]
    apply sortPairs_eq_of_perm (hpp.map _)
    rw [← perFileWith_eq_map root pp a.2 hna]
    exact perFileWith_keys_nodup root pp a.2

theorem canonDeps_MPerm (env : Env) (root : String) (fs : FS)
    {ms1 ms2 : List (String × List String)} (h : MPerm ms1 ms2)
    (hnd : NodupEcos ms1)
    (hrel : ∀ e ∈ ms1, (e.2.map (relPath root)).Nodup) :
    canonDeps (ms1.map (fun e => (niceName e.1, ecoFileMap env root fs e)))
      = canonDeps (ms2.map (fun e => (niceName e.1, ecoFileMap env root fs e))) := by
  obtain ⟨mid, h1, h2⟩ := h
  have hmid : ∀ e ∈ mid, (e.2.map (relPath root)).Nodup :=
    fun e he => hrel e (h1.mem_iff.mpr he)
  have step1 : canonDeps (ms1.map (fun e => (niceName e.1, ecoFileMap env root fs e)))
      = canonDeps (mid.map (fun e => (niceName e.1, ecoFileMap env root fs e))) := by
    unfold canonDeps
    rw [List.map_map, List.map_map]
    apply sortPairs_eq_of_perm (h1.map _)
    rw [List.map_map]
    exact hnd
  have step2 : canonDeps (mid.map (fun e => (niceName e.1, ecoFileMap env root fs e)))
      = canonDeps (ms2.map (fun e => (niceName e.1, ecoFileMap env root fs e))) := by
    unfold canonDeps
    rw [List.map_map, List.map_map]
    apply congrArg sortPairs
    apply map_eq_of_forall₂ h2
    intro a b ha hab
    show (niceName a.1, sortPairs (ecoFileMap env root fs a))
        = (niceName b.1, sortPairs (ecoFileMap env root fs b))
    rw [hab.1, ecoFileMap_sortPairs_eq env root fs a b hab (hmid a ha)]
  exact step1.trans step2

/-- C7: the report is a canonical function of the repository content.
Every list in the analysis (the ecosystem names, the relative file
paths, and each file's dependency list) is sorted, and the analysis —
up to the key-sorting `encoding/json` applies to the two map levels
when marshalling — is unchanged when the managers map is observed in a
different map iteration order and each ecosystem's files in a
different walk order, so running the compiler twice over the same
tree yields byte-identical JSON. -/
theorem claim_C7 (env : Env) (repoURL root : String) (fs : FS)
    (ms1 ms2 : List (String × List String))
    (hperm : MPerm ms1 ms2) (hnd : NodupEcos ms1)
    (hrel : ∀ e ∈ ms1, (e.2.map (relPath root)).Nodup)
    (hEnv : EnvSorted env) :
    canonAnalysis (analyzeRepository env repoURL root ms1 fs)
      = canonAnalysis (analyzeRepository env repoURL root ms2 fs) ∧
    List.Sorted strLeR (analyzeRepository env repoURL root ms1 fs).typ ∧
    List.Sorted strLeR (analyzeRepository env repoURL root ms1 fs).files ∧
    (∀ ei ∈ (analyzeRepository env repoURL root ms1 fs).deps,
      ∀ fd ∈ ei.2, List.Sorted strLeR fd.2) := by
  have hnd2 : NodupEcos ms2 := (MPerm_econames hperm).nodup_iff.mp hnd
  have hdeps1 : (analyzeRepository env repoURL root ms1 fs).deps
      = ms1.map (fun e => (niceName e.1, ecoFileMap env root fs e)) := by
    rw [analyzeRepository_deps, depsFold_eq env root fs ms1 [] (fun _ _ => rfl) hnd]
    simp
  refine ⟨?_, ?_, ?_, ?_⟩
  · have hdeps2 : (analyzeRepository env repoURL root ms2 fs).deps
        = ms2.map (fun e => (niceName e.1, ecoFileMap env root fs e)) := by
      rw [analyzeRepository_deps, depsFold_eq env root fs ms2 [] (fun _ _ => rfl) hnd2]
      simp
    have hrepo : (analyzeRepository env repoURL root ms1 fs).repo
        = (analyzeRepository env repoURL root ms2 fs).repo := rfl
    have htyp : (analyzeRepository env repoURL root ms1 fs).typ
        = (analyzeRepository env repoURL root ms2 fs).typ := by
      rw [analyzeRepository_typ, analyzeRepository_typ]
      exact sortStrings_eq_of_perm (MPerm_econames hperm)
    have hfiles : (analyzeRepository env repoURL root ms1 fs).files
        = (analyzeRepository env repoURL root ms2 fs).files := by
      rw [analyzeRepository_files, analyzeRepository_files]
      apply sortStrings_eq_of_perm
      rw [List.perm_ext_iff_of_nodup (fileSet_nodup root ms1 [] (by simp))
        (fileSet_nodup root ms2 [] (by simp))]
      intro x
      rw [mem_fileSet root ms1 [] x, mem_fileSet root ms2 [] x]
      simp only [List.not_mem_nil, false_or]
      obtain ⟨mid, h1, h2⟩ := hperm
      have hmidiff : (∃ e ∈ ms1, ∃ p ∈ e.2, x = relPath root p) ↔
          (∃ e ∈ mid, ∃ p ∈ e.2, x = relPath root p) := by
        constructor
        · rintro ⟨e, he, hr⟩
          exact ⟨e, h1.mem_iff.mp he, hr⟩
        · rintro ⟨e, he, hr⟩
          exact ⟨e, h1.mem_iff.mpr he, hr⟩
      rw [hmidiff]
      exact MRel_paths_iff root x h2
    unfold canonAnalysis
    rw [hrepo, htyp, hfiles, hdeps1, hdeps2,
      canonDeps_MPerm env root fs hperm hnd hrel]
  · rw [analyzeRepository_typ]
    exact sortStrings_sorted _
  · rw [analyzeRepository_files]
    exact sortStrings_sorted _
  · intro ei hei fd hfd
    rw [hdeps1] at hei
    rcases List.mem_map.mp hei with ⟨e, he, rfl⟩
    exact ecoFileMap_values_sorted env root fs e hEnv fd hfd

/-- C7 witness: a two-ecosystem repository observed under the two
iteration orders yields the same canonical analysis, with every list
of the result sorted. -/
theorem claim_C7_witness :
    canonAnalysis (analyzeRepository env0 "u" "r" c7m1 [])
      = canonAnalysis (analyzeRepository env0 "u" "r" c7m2 []) ∧
    List.Sorted strLeR (analyzeRepository env0 "u" "r" c7m1 []).typ ∧
    List.Sorted strLeR (analyzeRepository env0 "u" "r" c7m1 []).files ∧
    (∀ ei ∈ (analyzeRepository env0 "u" "r" c7m1 []).deps,
      ∀ fd ∈ ei.2, List.Sorted strLeR fd.2) :=
  claim_C7 env0 "u" "r" [] c7m1 c7m2
    ⟨c7mid, by decide,
      List.Forall₂.cons (by constructor <;> decide)
        (List.Forall₂.cons (by constructor <;> decide) List.Forall₂.nil)⟩
    (by decide) (by decide)
    ⟨fun _ => List.sorted_nil, fun _ => List.sorted_nil, fun _ => List.sorted_nil,
      fun _ => List.sorted_nil, fun _ => List.sorted_nil⟩
